import Mathlib

/-!
Verification development for the Introspector Parser
(`Introspector/Parser/parse.py`): a shallow embedding of its
syntax-tree queries (`variables`, `variable_indices`, `documentation`,
`nestable_lines`, `modules`) plus the supporting helpers
(`_AssignParser`, `_NameParser`, `_get_path`, `_iter_paths`,
`_calculate_lineno`, `_calculate_index`, `_word_at_index`), with
theorems about scope collection, position arithmetic, and the public
query contracts.

Source text is modelled as `List Char` (the decoded unicode text);
only the `\n` line terminator is modelled, which is the terminator
used by all relevant inputs.  Python dictionaries are modelled as
insertion-ordered association lists (a deterministic stand-in for
CPython's per-run-deterministic iteration order); `defaultdict(list)`
appends are modelled by `addNode`.  Operations that can raise in
Python (attribute errors on `.id`, key errors, the
list-indexed-by-string type error) are modelled in the
`Except String` monad.  The external collaborators (`ast.parse`,
`unicode(. , UTF-8)`, module resolution) are taken as function
parameters, as the specification treats them as collaborators.
-/

namespace Introspector

/-- `_VariableNode`: a (lineno, col_offset) pair recorded for a binding. -/
structure VarNode where
  lineno : Nat
  col_offset : Nat
deriving DecidableEq

/-- An `ast.alias` entry of an import statement: name plus optional asname. -/
structure ImpAlias where
  name : String
  asname : Option String
deriving DecidableEq

/-- The fragment of the Python 2 `ast` node language exercised by the
parser.  `imp`/`impFrom` model `ast.Import` / `ast.ImportFrom` (their
`alias` children carry no position and no visitor ever acts on them, so
they are kept as plain data).  The `arguments` wrapper node of a
`FunctionDef` is flattened away: it has no `lineno` and no visitor, so
every traversal treats it as transparent; `args` holds the parameter
`Name` nodes.  Decorator lists and class bases are not modelled. -/
inductive AST : Type where
  | module (body : List AST)
  | functionDef (lineno col_offset : Nat) (nm : String) (args : List AST) (body : List AST)
  | classDef (lineno col_offset : Nat) (nm : String) (body : List AST)
  | assign (lineno col_offset : Nat) (targets : List AST) (value : AST)
  | forStmt (lineno col_offset : Nat) (target iter : AST) (body orelse : List AST)
  | whileStmt (lineno col_offset : Nat) (test : AST) (body orelse : List AST)
  | ifStmt (lineno col_offset : Nat) (test : AST) (body orelse : List AST)
  | tryExcept (lineno col_offset : Nat) (body handlers orelse : List AST)
  | tryFinally (lineno col_offset : Nat) (body finalbody : List AST)
  | exceptHandler (lineno col_offset : Nat) (body : List AST)
  | imp (lineno col_offset : Nat) (names : List ImpAlias)
  | impFrom (lineno col_offset : Nat) (moduleName : String) (names : List ImpAlias)
  | nameRef (lineno col_offset : Nat) (id : String)
  | tuple (lineno col_offset : Nat) (elts : List AST)
  | strLit (lineno col_offset : Nat) (s : String)
  | num (lineno col_offset : Nat)
  | passStmt (lineno col_offset : Nat)
  | exprStmt (lineno col_offset : Nat) (value : AST)

/-- `lineno` attribute: every modelled node has one except the `Module` root. -/
def linenoOf : AST → Option Nat
  | .module _ => none
  | .functionDef l _ _ _ _ => some l
  | .classDef l _ _ _ => some l
  | .assign l _ _ _ => some l
  | .forStmt l _ _ _ _ _ => some l
  | .whileStmt l _ _ _ _ => some l
  | .ifStmt l _ _ _ _ => some l
  | .tryExcept l _ _ _ _ => some l
  | .tryFinally l _ _ _ => some l
  | .exceptHandler l _ _ => some l
  | .imp l _ _ => some l
  | .impFrom l _ _ _ => some l
  | .nameRef l _ _ => some l
  | .tuple l _ _ => some l
  | .strLit l _ _ => some l
  | .num l _ => some l
  | .passStmt l _ => some l
  | .exprStmt l _ _ => some l

def linenoGetD (t : AST) : Nat := (linenoOf t).getD 0

/-- `col_offset` attribute (0 for the `Module` root, which never uses it). -/
def colGetD : AST → Nat
  | .module _ => 0
  | .functionDef _ c _ _ _ => c
  | .classDef _ c _ _ => c
  | .assign _ c _ _ => c
  | .forStmt _ c _ _ _ _ => c
  | .whileStmt _ c _ _ _ => c
  | .ifStmt _ c _ _ _ => c
  | .tryExcept _ c _ _ _ => c
  | .tryFinally _ c _ _ => c
  | .exceptHandler _ c _ => c
  | .imp _ c _ => c
  | .impFrom _ c _ _ => c
  | .nameRef _ c _ => c
  | .tuple _ c _ => c
  | .strLit _ c _ => c
  | .num _ c => c
  | .passStmt _ c => c
  | .exprStmt _ c _ => c

/-!
Structural equality test on trees (CPython compares nodes by object
identity; the one place that needs it, the write-back of the mutated
scope subtree, is modelled by structural equality, which coincides with
identity on the trees at hand since they have no duplicated subtrees).
-/
mutual
def beqA : AST → AST → Bool
  | .module b, .module b' => beqL b b'
  | .functionDef l c nm args body, .functionDef l' c' nm' args' body' =>
      l == l' && c == c' && nm == nm' && beqL args args' && beqL body body'
  | .classDef l c nm body, .classDef l' c' nm' body' =>
      l == l' && c == c' && nm == nm' && beqL body body'
  | .assign l c ts v, .assign l' c' ts' v' =>
      l == l' && c == c' && beqL ts ts' && beqA v v'
  | .forStmt l c tg it b o, .forStmt l' c' tg' it' b' o' =>
      l == l' && c == c' && beqA tg tg' && beqA it it' && beqL b b' && beqL o o'
  | .whileStmt l c te b o, .whileStmt l' c' te' b' o' =>
      l == l' && c == c' && beqA te te' && beqL b b' && beqL o o'
  | .ifStmt l c te b o, .ifStmt l' c' te' b' o' =>
      l == l' && c == c' && beqA te te' && beqL b b' && beqL o o'
  | .tryExcept l c b h o, .tryExcept l' c' b' h' o' =>
      l == l' && c == c' && beqL b b' && beqL h h' && beqL o o'
  | .tryFinally l c b f, .tryFinally l' c' b' f' =>
      l == l' && c == c' && beqL b b' && beqL f f'
  | .exceptHandler l c b, .exceptHandler l' c' b' =>
      l == l' && c == c' && beqL b b'
  | .imp l c ns, .imp l' c' ns' => l == l' && c == c' && ns == ns'
  | .impFrom l c m ns, .impFrom l' c' m' ns' =>
      l == l' && c == c' && m == m' && ns == ns'
  | .nameRef l c id, .nameRef l' c' id' => l == l' && c == c' && id == id'
  | .tuple l c es, .tuple l' c' es' => l == l' && c == c' && beqL es es'
  | .strLit l c s, .strLit l' c' s' => l == l' && c == c' && s == s'
  | .num l c, .num l' c' => l == l' && c == c'
  | .passStmt l c, .passStmt l' c' => l == l' && c == c'
  | .exprStmt l c v, .exprStmt l' c' v' => l == l' && c == c' && beqA v v'
  | _, _ => false

def beqL : List AST → List AST → Bool
  | [], [] => true
  | t :: ts, u :: us => beqA t u && beqL ts us
  | _, _ => false
end

/-! ### Text and position bookkeeping -/

/-- Worker for `str.splitlines(True)` restricted to `\n` terminators. -/
def splitTrueAux : List Char → List Char → List (List Char)
  | [], acc => match acc with
    | [] => []
    | _ => [acc.reverse]
  | ch :: rest, acc =>
      if ch = '\n' then (acc.reverse ++ ['\n']) :: splitTrueAux rest []
      else splitTrueAux rest (ch :: acc)

/-- `str.splitlines(True)`: split into lines keeping the terminators. -/
def splitlinesTrue (s : List Char) : List (List Char) := splitTrueAux s []

/-- Strip one trailing newline from a line. -/
def stripNl (l : List Char) : List Char :=
  if l.getLast? = some '\n' then l.dropLast else l

/-- `str.splitlines()`: split into lines dropping the terminators. -/
def splitlinesFalse (s : List Char) : List (List Char) :=
  (splitlinesTrue s).map stripNl

/-- `sum(len(line) for line in lines)`. -/
def sumLens : List (List Char) → Nat
  | [] => 0
  | l :: ls => l.length + sumLens ls

/-- Loop body of `Parser._calculate_lineno`: enumerate the kept-newline
lines accumulating their lengths, stopping at the first line whose
cumulative length reaches `index`; falling off the end leaves the last
line's number. -/
def linenoGo (index : Nat) : List (List Char) → Nat → Nat → Nat
  | [], _, k => k
  | [_], _, k => k + 1
  | l :: l2 :: rest, idx, k =>
      if index ≤ idx + l.length then k + 1
      else linenoGo index (l2 :: rest) (idx + l.length) (k + 1)

/-- `Parser._calculate_lineno`: the 1-based line number containing `index`
(empty source yields line 1). -/
def calcLineno (src : List Char) (index : Nat) : Nat :=
  match splitlinesTrue src with
  | [] => 1
  | ls => linenoGo index ls 0 0

/-- `_calculate_index`: sum of the lengths of all lines before `lineno`
plus `col_offset`. -/
def calcIndex (src : List Char) (lineno col_offset : Nat) : Nat :=
  sumLens ((splitlinesTrue src).take (lineno - 1)) + col_offset

/-- Python `unicode.isspace` characters (restricted to ASCII). -/
def isSpaceChar (ch : Char) : Bool :=
  ch = ' ' || ch = '\t' || ch = '\n' || ch = '\r' || ch = '\x0b' || ch = '\x0c'

/-- `line == "" or line.isspace()`. -/
def isBlankLine (l : List Char) : Bool := l.all isSpaceChar

/-- The `while lines and blank(lines[-1]): lines.pop()` loop of
`Parser.variables`. -/
def dropTrailingBlanks (ls : List (List Char)) : List (List Char) :=
  (ls.reverse.dropWhile isBlankLine).reverse

/-- Characters of `string.letters + string.digits + '_'`. -/
def isWordChar (ch : Char) : Bool := ch.isAlpha || ch.isDigit || ch = '_'

/-- The anchor scan of `_word_at_index`: walk left from `index` to the
first non-word character; its successor is the word start (0 if none). -/
def findAnchor (src : List Char) : Nat → Nat
  | 0 => if isWordChar (src.getD 0 ' ') then 0 else 1
  | j + 1 => if isWordChar (src.getD (j + 1) ' ') then findAnchor src j else j + 2

/-- Scan of the remaining characters for the first non-word position. -/
def findBoundAux : List Char → Nat → Nat
  | [], idx => idx
  | ch :: rest, idx => if isWordChar ch then findBoundAux rest (idx + 1) else idx

/-- The bound scan of `_word_at_index`: walk right from `index` (always
in range at the call sites) to the first non-word character, defaulting
to the end of the text. -/
def findBound (src : List Char) (index : Nat) : Nat :=
  findBoundAux (src.drop index) index

/-- `Parser._word_at_index`: the identifier containing `index`, or the
empty string when `index` sits on a boundary character. -/
def wordAt (src : List Char) (index : Nat) : String :=
  let anchor := findAnchor src index
  let bound := findBound src index
  String.mk ((src.drop anchor).take (bound - anchor))

/-! ### The bindings dictionary (`_AssignParser.variables`) -/

/-- `collections.defaultdict(list)` keyed by name, insertion ordered. -/
abbrev Vars := List (String × List VarNode)

/-- `_AssignParser._add_node`: append a `_VariableNode` to the list at
key `nm` (creating the key at the end on first use). -/
def addNode (vs : Vars) (nm : String) (vn : VarNode) : Vars :=
  match vs with
  | [] => [(nm, [vn])]
  | (k, l) :: rest =>
      if k = nm then (k, l ++ [vn]) :: rest else (k, l) :: addNode rest nm vn

/-- Association-list lookup (Python `dict.__getitem__` / `in`). -/
def lookupA {α : Type} : List (String × α) → String → Option α
  | [], _ => none
  | (k, v) :: rest, nm => if k = nm then some v else lookupA rest nm

def lookupList (vs : Vars) (nm : String) : List VarNode := (lookupA vs nm).getD []

/-- All nodes recorded for `nm` in `vs` contain `vn`. -/
def MemV (vs : Vars) (nm : String) (vn : VarNode) : Prop := vn ∈ lookupList vs nm

/-- `vs'` keeps every record of `vs` (the collector only ever appends). -/
def Subv (vs vs' : Vars) : Prop := ∀ nm vn, MemV vs nm vn → MemV vs' nm vn

/-! ### The scope collector (`_AssignParser`) -/

/-- The cutoff `self.lineno`: a line number, or `none` for
`float('inf')` (the unbounded cutoff used by `variable_indices`). -/
abbrev Cut := Option Nat

def leCut (l : Nat) : Cut → Bool
  | none => true
  | some m => l ≤ m

def ltCut (l : Nat) : Cut → Bool
  | none => true
  | some m => l < m

/-- The guard of the overridden `visit`: dispatch iff the node has a
`lineno` at most the cutoff, or has no `lineno` at all. -/
def visitGuard (cut : Cut) (t : AST) : Bool :=
  match linenoOf t with
  | some l => leCut l cut
  | none => true

/-- Name and position of a `FunctionDef`/`ClassDef`, else `none`. -/
def defNameVn : AST → Option (String × VarNode)
  | .functionDef l c nm _ _ => some (nm, ⟨l, c⟩)
  | .classDef l c nm _ => some (nm, ⟨l, c⟩)
  | _ => none

/-- `node.id`, raising `AttributeError` on non-`Name` nodes. -/
def astIdE : AST → Except String String
  | .nameRef _ _ id => .ok id
  | _ => .error "AttributeError"

/-- `_AssignParser._visit_assign_target`: bind a `Name` target at its own
position; bind every element of a `Tuple` target (whose elements must be
`Name`s, else the uncaught `elt.id` raises); silently ignore anything
else (the caught `AttributeError`). -/
def visitAssignTarget (vs : Vars) (t : AST) : Except String Vars :=
  match t with
  | .nameRef l c id => .ok (addNode vs id ⟨l, c⟩)
  | .tuple _ _ elts =>
      elts.foldlM (fun vs e => do
        let id ← astIdE e
        .ok (addNode vs id ⟨linenoGetD e, colGetD e⟩)) vs
  | _ => .ok vs

/-- `_AssignParser._visit_import`: bind the asname if present, else the
imported name, each at the position of the import statement itself. -/
def importNamesFold (vs : Vars) (l c : Nat) (names : List ImpAlias) : Vars :=
  names.foldl
    (fun vs a =>
      addNode vs (match a.asname with | some s => s | none => a.name) ⟨l, c⟩)
    vs

/-- The argument loop of `visit_FunctionDef`: bind every parameter name
at the parameter node's own position (`arg.id` raises on non-`Name`). -/
def addArgs (vs : Vars) (args : List AST) : Except String Vars :=
  args.foldlM (fun vs a => do
    let id ← astIdE a
    .ok (addNode vs id ⟨linenoGetD a, colGetD a⟩)) vs

/-!
`_AssignParser.visit` with `NodeVisitor` dispatch inlined: the guard
wraps the per-kind handlers; kinds without a handler get
`generic_visit`, which visits each child field in order through `visit`
again.  `visit_Module` adds nested definition names unconditionally;
`_visit_def` (functions and classes as scopes) adds nested definition
names only up to the cutoff and appends the definition's own name;
`visit_FunctionDef` additionally binds the parameters when the header
line is strictly below the cutoff.
-/
mutual
def avisit (cut : Cut) (vs : Vars) (t : AST) : Except String Vars :=
  if visitGuard cut t then
    match t with
    | .module body => visitModuleBody cut vs body
    | .functionDef l c nm args body => do
        let vs ← visitDefBody cut vs body
        let vs := addNode vs nm ⟨l, c⟩
        if ltCut l cut then addArgs vs args else .ok vs
    | .classDef l c nm body => do
        let vs ← visitDefBody cut vs body
        .ok (addNode vs nm ⟨l, c⟩)
    | .assign _ _ targets value => do
        let vs ← targets.foldlM visitAssignTarget vs
        let vs ← avisitList cut vs targets
        avisit cut vs value
    | .forStmt _ _ target iter body orelse => do
        let vs ← visitAssignTarget vs target
        let vs ← avisit cut vs target
        let vs ← avisit cut vs iter
        let vs ← avisitList cut vs body
        avisitList cut vs orelse
    | .whileStmt _ _ test body orelse => do
        let vs ← avisit cut vs test
        let vs ← avisitList cut vs body
        avisitList cut vs orelse
    | .ifStmt _ _ test body orelse => do
        let vs ← avisit cut vs test
        let vs ← avisitList cut vs body
        avisitList cut vs orelse
    | .tryExcept _ _ body handlers orelse => do
        let vs ← avisitList cut vs body
        let vs ← avisitList cut vs handlers
        avisitList cut vs orelse
    | .tryFinally _ _ body finalbody => do
        let vs ← avisitList cut vs body
        avisitList cut vs finalbody
    | .exceptHandler _ _ body => avisitList cut vs body
    | .imp l c names => .ok (importNamesFold vs l c names)
    | .impFrom l c _ names => .ok (importNamesFold vs l c names)
    | .nameRef _ _ _ => .ok vs
    | .tuple _ _ elts => avisitList cut vs elts
    | .strLit _ _ _ => .ok vs
    | .num _ _ => .ok vs
    | .passStmt _ _ => .ok vs
    | .exprStmt _ _ value => avisit cut vs value
  else .ok vs

/-- `visit_Module`: definitions at module top level are bound by name
unconditionally; every other statement goes through `visit`. -/
def visitModuleBody (cut : Cut) (vs : Vars) : List AST → Except String Vars
  | [] => .ok vs
  | sub :: rest => do
      let vs ←
        match defNameVn sub with
        | some (nm, vn) => .ok (addNode vs nm vn)
        | none => avisit cut vs sub
      visitModuleBody cut vs rest

/-- The body loop of `_visit_def`: nested definitions are bound by name
only when their line is at most the cutoff; everything else (including
definitions beyond the cutoff) goes through `visit`. -/
def visitDefBody (cut : Cut) (vs : Vars) : List AST → Except String Vars
  | [] => .ok vs
  | sub :: rest => do
      let vs ←
        match defNameVn sub with
        | some (nm, vn) =>
            if leCut (linenoGetD sub) cut then .ok (addNode vs nm vn)
            else avisit cut vs sub
        | none => avisit cut vs sub
      visitDefBody cut vs rest

def avisitList (cut : Cut) (vs : Vars) : List AST → Except String Vars
  | [] => .ok vs
  | t :: ts => do
      let vs ← avisit cut vs t
      avisitList cut vs ts
end

/-! ### Paths through the tree (`_iter_paths`, `_get_path`)

`_iter_paths` enumerates root-to-leaf paths in pre-order, leftmost
subtree first; the recursion below expands `ast.iter_child_nodes` field
by field in `_fields` order.  Nodes whose only children are `alias`
entries are treated as leaves: an `alias` has no `lineno`, can never
match the target line, and no visitor acts on it, so dropping it from a
returned path is observationally equal to Python's behaviour.
-/
mutual
def iterPaths (t : AST) (cur : List AST) : List (List AST) :=
  match t with
  | .module body =>
      (match body with
       | [] => [cur]
       | _ => iterPathsList body cur)
  | .functionDef _ _ _ args body =>
      (match args, body with
       | [], [] => [cur]
       | _, _ => iterPathsList args cur ++ iterPathsList body cur)
  | .classDef _ _ _ body =>
      (match body with
       | [] => [cur]
       | _ => iterPathsList body cur)
  | .assign _ _ targets value =>
      iterPathsList targets cur ++ iterPaths value (cur ++ [value])
  | .forStmt _ _ target iter body orelse =>
      iterPaths target (cur ++ [target]) ++ iterPaths iter (cur ++ [iter]) ++
        iterPathsList body cur ++ iterPathsList orelse cur
  | .whileStmt _ _ test body orelse =>
      iterPaths test (cur ++ [test]) ++ iterPathsList body cur ++
        iterPathsList orelse cur
  | .ifStmt _ _ test body orelse =>
      iterPaths test (cur ++ [test]) ++ iterPathsList body cur ++
        iterPathsList orelse cur
  | .tryExcept _ _ body handlers orelse =>
      (match body, handlers, orelse with
       | [], [], [] => [cur]
       | _, _, _ =>
           iterPathsList body cur ++ iterPathsList handlers cur ++
             iterPathsList orelse cur)
  | .tryFinally _ _ body finalbody =>
      (match body, finalbody with
       | [], [] => [cur]
       | _, _ => iterPathsList body cur ++ iterPathsList finalbody cur)
  | .exceptHandler _ _ body =>
      (match body with
       | [] => [cur]
       | _ => iterPathsList body cur)
  | .imp _ _ _ => [cur]
  | .impFrom _ _ _ _ => [cur]
  | .nameRef _ _ _ => [cur]
  | .tuple _ _ elts =>
      (match elts with
       | [] => [cur]
       | _ => iterPathsList elts cur)
  | .strLit _ _ _ => [cur]
  | .num _ _ => [cur]
  | .passStmt _ _ => [cur]
  | .exprStmt _ _ value => iterPaths value (cur ++ [value])

def iterPathsList (ts : List AST) (cur : List AST) : List (List AST) :=
  match ts with
  | [] => []
  | t :: rest => iterPaths t (cur ++ [t]) ++ iterPathsList rest cur
end

/-- `_get_path`: the first enumerated path containing a node on the
target line, prefixed with the root; empty when no node matches. -/
def getPath (tree : AST) (lineno : Nat) : List AST :=
  match (iterPaths tree []).find? (fun p => p.any (fun n => linenoOf n = some lineno)) with
  | some p => tree :: p
  | none => []

/-! ### `ast.walk` and line spans

`ast.walk` yields the node and all its descendants, in an order its
documentation leaves unspecified; the uses below (maxima of line
numbers, kind filters, import collection) are insensitive to the order,
and pre-order is used here.
-/
mutual
def walk (t : AST) : List AST :=
  t ::
    (match t with
     | .module body => walkList body
     | .functionDef _ _ _ args body => walkList args ++ walkList body
     | .classDef _ _ _ body => walkList body
     | .assign _ _ targets value => walkList targets ++ walk value
     | .forStmt _ _ target iter body orelse =>
         walk target ++ walk iter ++ walkList body ++ walkList orelse
     | .whileStmt _ _ test body orelse =>
         walk test ++ walkList body ++ walkList orelse
     | .ifStmt _ _ test body orelse =>
         walk test ++ walkList body ++ walkList orelse
     | .tryExcept _ _ body handlers orelse =>
         walkList body ++ walkList handlers ++ walkList orelse
     | .tryFinally _ _ body finalbody => walkList body ++ walkList finalbody
     | .exceptHandler _ _ body => walkList body
     | .imp _ _ _ => []
     | .impFrom _ _ _ _ => []
     | .nameRef _ _ _ => []
     | .tuple _ _ elts => walkList elts
     | .strLit _ _ _ => []
     | .num _ _ => []
     | .passStmt _ _ => []
     | .exprStmt _ _ value => walk value)

def walkList : List AST → List AST
  | [] => []
  | t :: ts => walk t ++ walkList ts
end

/-- The inner loop of `Parser.nestable_lines` and of
`_DefinitionParser._node_end`: the largest `lineno` reached by the node
or any descendant (0 when none carries a line). -/
def walkEndLineno (t : AST) : Nat :=
  (walk t).foldl
    (fun e sub => match linenoOf sub with
      | some l => if e < l then l else e
      | none => e)
    0

/-- The kinds enumerated by `nestable_lines`'s isinstance test:
`FunctionDef, ClassDef, If, For, TryExcept, TryFinally` (note: not
`While`). -/
def isNestableNode : AST → Bool
  | .functionDef _ _ _ _ _ => true
  | .classDef _ _ _ _ => true
  | .ifStmt _ _ _ _ _ => true
  | .forStmt _ _ _ _ _ _ => true
  | .tryExcept _ _ _ _ _ => true
  | .tryFinally _ _ _ _ => true
  | _ => false

/-- `tree.body` (the stored tree is always an `ast.Module`). -/
def bodyOf : AST → List AST
  | .module body => body
  | _ => []

/-- `Parser.nestable_lines`: for each matching node anywhere below a
top-level statement, the pair of its start line and the maximum line
reached by its subtree. -/
def nestable_lines (tree : AST) : List (Nat × Nat) :=
  (bodyOf tree).flatMap (fun node =>
    (walk node).filterMap (fun sub =>
      if isNestableNode sub then some (linenoGetD sub, walkEndLineno sub)
      else none))

/-! ### The name finder (`_NameParser`)

`_NameParser` has no cutoff guard and recurses into nested definitions.
Its `_visit_def` increments the visited definition node's `col_offset`
in place — mutating the stored tree — before recording a matching name;
the functions below therefore return the rebuilt (mutated) tree
alongside the collected occurrence set.  `self.names` is a `set`; its
iteration order is unspecified and the collection order below is a
deterministic stand-in.
-/

/-- `set.add` on the collected occurrence set. -/
def addName (acc : List VarNode) (vn : VarNode) : List VarNode :=
  if vn ∈ acc then acc else acc ++ [vn]

mutual
def nvisit (nm : String) (acc : List VarNode) : AST → List VarNode × AST
  | .nameRef l c id =>
      (if id = nm then addName acc ⟨l, c⟩ else acc, .nameRef l c id)
  | .functionDef l c fname args body =>
      let c2 := c + 4
      let acc := if fname = nm then addName acc ⟨l, c2⟩ else acc
      let (acc, args2) := nvisitList nm acc args
      let (acc, body2) := nvisitList nm acc body
      (acc, .functionDef l c2 fname args2 body2)
  | .classDef l c cname body =>
      let c2 := c + 6
      let acc := if cname = nm then addName acc ⟨l, c2⟩ else acc
      let (acc, body2) := nvisitList nm acc body
      (acc, .classDef l c2 cname body2)
  | .module body =>
      let (acc, body2) := nvisitList nm acc body
      (acc, .module body2)
  | .assign l c targets value =>
      let (acc, ts2) := nvisitList nm acc targets
      let (acc, v2) := nvisit nm acc value
      (acc, .assign l c ts2 v2)
  | .forStmt l c target iter body orelse =>
      let (acc, tg2) := nvisit nm acc target
      let (acc, it2) := nvisit nm acc iter
      let (acc, b2) := nvisitList nm acc body
      let (acc, o2) := nvisitList nm acc orelse
      (acc, .forStmt l c tg2 it2 b2 o2)
  | .whileStmt l c test body orelse =>
      let (acc, te2) := nvisit nm acc test
      let (acc, b2) := nvisitList nm acc body
      let (acc, o2) := nvisitList nm acc orelse
      (acc, .whileStmt l c te2 b2 o2)
  | .ifStmt l c test body orelse =>
      let (acc, te2) := nvisit nm acc test
      let (acc, b2) := nvisitList nm acc body
      let (acc, o2) := nvisitList nm acc orelse
      (acc, .ifStmt l c te2 b2 o2)
  | .tryExcept l c body handlers orelse =>
      let (acc, b2) := nvisitList nm acc body
      let (acc, h2) := nvisitList nm acc handlers
      let (acc, o2) := nvisitList nm acc orelse
      (acc, .tryExcept l c b2 h2 o2)
  | .tryFinally l c body finalbody =>
      let (acc, b2) := nvisitList nm acc body
      let (acc, f2) := nvisitList nm acc finalbody
      (acc, .tryFinally l c b2 f2)
  | .exceptHandler l c body =>
      let (acc, b2) := nvisitList nm acc body
      (acc, .exceptHandler l c b2)
  | .imp l c names => (acc, .imp l c names)
  | .impFrom l c m names => (acc, .impFrom l c m names)
  | .tuple l c elts =>
      let (acc, e2) := nvisitList nm acc elts
      (acc, .tuple l c e2)
  | .strLit l c s => (acc, .strLit l c s)
  | .num l c => (acc, .num l c)
  | .passStmt l c => (acc, .passStmt l c)
  | .exprStmt l c value =>
      let (acc, v2) := nvisit nm acc value
      (acc, .exprStmt l c v2)

def nvisitList (nm : String) (acc : List VarNode) :
    List AST → List VarNode × List AST
  | [] => (acc, [])
  | t :: ts =>
      let (acc, t2) := nvisit nm acc t
      let (acc, ts2) := nvisitList nm acc ts
      (acc, t2 :: ts2)
end

/-!
Write-back of the in-place mutation: replace the subtree the
`_NameParser` visited (found by identity in CPython, by structural
equality here) with its mutated version.
-/
mutual
def replaceSub (target repl t : AST) : AST :=
  if beqA t target then repl
  else
    match t with
    | .module body => .module (replaceSubList target repl body)
    | .functionDef l c nm args body =>
        .functionDef l c nm (replaceSubList target repl args)
          (replaceSubList target repl body)
    | .classDef l c nm body => .classDef l c nm (replaceSubList target repl body)
    | .assign l c targets value =>
        .assign l c (replaceSubList target repl targets) (replaceSub target repl value)
    | .forStmt l c target2 iter body orelse =>
        .forStmt l c (replaceSub target repl target2) (replaceSub target repl iter)
          (replaceSubList target repl body) (replaceSubList target repl orelse)
    | .whileStmt l c test body orelse =>
        .whileStmt l c (replaceSub target repl test)
          (replaceSubList target repl body) (replaceSubList target repl orelse)
    | .ifStmt l c test body orelse =>
        .ifStmt l c (replaceSub target repl test)
          (replaceSubList target repl body) (replaceSubList target repl orelse)
    | .tryExcept l c body handlers orelse =>
        .tryExcept l c (replaceSubList target repl body)
          (replaceSubList target repl handlers) (replaceSubList target repl orelse)
    | .tryFinally l c body finalbody =>
        .tryFinally l c (replaceSubList target repl body)
          (replaceSubList target repl finalbody)
    | .exceptHandler l c body => .exceptHandler l c (replaceSubList target repl body)
    | .imp l c names => .imp l c names
    | .impFrom l c m names => .impFrom l c m names
    | .nameRef l c id => .nameRef l c id
    | .tuple l c elts => .tuple l c (replaceSubList target repl elts)
    | .strLit l c s => .strLit l c s
    | .num l c => .num l c
    | .passStmt l c => .passStmt l c
    | .exprStmt l c value => .exprStmt l c (replaceSub target repl value)

def replaceSubList (target repl : AST) : List AST → List AST
  | [] => []
  | t :: ts => replaceSub target repl t :: replaceSubList target repl ts
end

/-! ### `Parser.variables` -/

/-- The collection phase of `Parser.variables`: compute the raw line of
`index`, pop trailing blank lines, and run one `_AssignParser` (cutoff =
the adjusted line) over every node of the path to that line. -/
def collectAt (tree : AST) (src : List Char) (index : Nat) : Except String Vars :=
  let lineno := calcLineno src index
  let lines := dropTrailingBlanks ((splitlinesFalse src).take lineno)
  let newLineno := lines.length
  (getPath tree newLineno).foldlM (fun vs n => avisit (some newLineno) vs n) []

/-- The builtin loop of `Parser.variables`: give every reserved name not
already collected an empty index set. -/
def addBuiltins (vsIdx : List (String × List Nat)) (builtins : List String) :
    List (String × List Nat) :=
  builtins.foldl
    (fun acc b => if acc.any (fun p => p.1 = b) then acc else acc ++ [(b, [])])
    vsIdx

/-- `max(indices) if indices else -1`. -/
def maxOrNeg : List Nat → Int
  | [] => -1
  | x :: xs => ((x :: xs).foldl Nat.max 0 : Nat)

/-- `Parser.variables`: defined names mapped to the largest index of
their bindings, with every builtin (the `dir(__builtin__) +
keyword.kwlist` table, passed here as the parameter it is data of the
host runtime) defaulting to the sentinel `-1`. -/
def variablesQ (builtins : List String) (tree : AST) (src : List Char)
    (index : Nat) : Except String (List (String × Int)) := do
  let vars ← collectAt tree src index
  let varsIdx := vars.map (fun p =>
    (p.1, p.2.map (fun vn => calcIndex src vn.lineno vn.col_offset)))
  let withB := addBuiltins varsIdx builtins
  .ok (withB.map (fun p => (p.1, maxOrNeg p.2)))

/-! ### `Parser.variable_indices` -/

/-- `ast.Module`, `ast.FunctionDef`, `ast.ClassDef`: the scope kinds. -/
def isScopeNode : AST → Bool
  | .module _ => true
  | .functionDef _ _ _ _ _ => true
  | .classDef _ _ _ _ => true
  | _ => false

/-- The scope loop of `variable_indices`: walk the reversed path's scope
nodes, collect each with an unbounded cutoff, stop at the first scope
whose bindings contain the name (clearing between attempts); `none`
models the for-else fall-through. -/
def scopeSearch (v : String) : List AST → Except String (Option (AST × Vars))
  | [] => .ok none
  | n :: rest => do
      let vs ← avisit none [] n
      if (lookupA vs v).isSome then .ok (some (n, vs)) else scopeSearch v rest

/-- The scope-node candidates for the query line: scope kinds on the
reversed `_get_path` chain (innermost first). -/
def scopesAt (tree : AST) (src : List Char) (index : Nat) : List AST :=
  ((getPath tree (calcLineno src index)).reverse).filter isScopeNode

def insertSorted (x : Nat) : List Nat → List Nat
  | [] => [x]
  | y :: ys => if x ≤ y then x :: y :: ys else y :: insertSorted x ys

/-- `sorted` on indices. -/
def sortNat (l : List Nat) : List Nat := l.foldr insertSorted []

/-- The sorted binding indices of `v` in the found scope's collection. -/
def bindingIndices (src : List Char) (vs : Vars) (v : String) : List Nat :=
  sortNat ((lookupList vs v).map (fun vn => calcIndex src vn.lineno vn.col_offset))

/-- `idx < next_index` where `next_index` may be `float('inf')`. -/
def ltOpt (idx : Nat) : Option Nat → Bool
  | none => true
  | some n => idx < n

/-- `Parser.variable_indices`.  Besides the list of `(index, length)`
occurrence ranges it returns the stored tree as left behind by the call:
`_NameParser._visit_def` increments `col_offset` of every visited
definition node in place, so the scope subtree is written back mutated. -/
def variable_indices (tree : AST) (src : List Char) (index : Nat) :
    Except String (List (Nat × Nat) × AST) :=
  if src.length ≤ index then .ok ([], tree)
  else
    let v := wordAt src index
    if v = "" then .ok ([], tree)
    else do
      match ← scopeSearch v (scopesAt tree src index) with
      | none => .ok ([], tree)
      | some (scopeNode, vs) =>
          let varIdxs := bindingIndices src vs v
          let prevIdx := ((varIdxs.reverse).find? (fun idx => idx ≤ index)).getD 0
          let nextIdx := varIdxs.find? (fun idx => index < idx)
          let (names, scopeNode2) := nvisit v [] scopeNode
          let nameIdxs := names.map (fun vn => calcIndex src vn.lineno vn.col_offset)
          let res := (nameIdxs.filter (fun idx => prevIdx ≤ idx && ltOpt idx nextIdx)).map
            (fun idx => (idx, v.length))
          .ok (res, replaceSub scopeNode scopeNode2 tree)

/-! ### `Parser.documentation` -/

/-- Python `dict` insert: overwrite in place, append new keys. -/
def dictInsert {α : Type} : List (String × α) → String → α → List (String × α)
  | [], k, v => [(k, v)]
  | (k', v') :: rest, k, v =>
      if k' = k then (k', v) :: rest else (k', v') :: dictInsert rest k v

/-- Update an existing key (`d[k] += ...` site), `none` when absent. -/
def dictBump (d : List (String × String)) (k suffix : String) :
    Option (List (String × String)) :=
  match lookupA d k with
  | some s => some (dictInsert d k (s ++ suffix))
  | none => none

def isFunctionDefNode : AST → Bool
  | .functionDef _ _ _ _ _ => true
  | _ => false

def isClassDefNode : AST → Bool
  | .classDef _ _ _ _ => true
  | _ => false

def defNameOf : AST → String
  | .functionDef _ _ nm _ _ => nm
  | .classDef _ _ nm _ => nm
  | _ => ""

def defBodyOf : AST → List AST
  | .functionDef _ _ _ _ body => body
  | .classDef _ _ _ body => body
  | .module body => body
  | _ => []

/-- `ast.get_docstring`: the leading string-literal statement of the
body, if any (docstring cleaning is not modelled). -/
def get_docstring (t : AST) : Option String :=
  match defBodyOf t with
  | .exprStmt _ _ (.strLit _ _ s) :: _ => some s
  | _ => none

/-- `def_string`: `"{lineno} {name}\n{docstring or ''}"`. -/
def defString (t : AST) (nm : String) : String :=
  toString (linenoGetD t) ++ " " ++ nm ++ "\n" ++ (get_docstring t).getD ""

def insertSortedStr (x : String) : List String → List String
  | [] => [x]
  | y :: ys => if x ≤ y then x :: y :: ys else y :: insertSortedStr x ys

/-- `list.sort()` on names. -/
def sortStr (l : List String) : List String := l.foldr insertSortedStr []

/-- `Parser.documentation`.  The first loop rewrites the functions dict
into strings, always appending a blank separator (`i <= len - 1` is
always true).  The second loop rewrites the classes dict — but appends
the separator to `functions[name]`, which raises `KeyError` whenever a
class name is not also a top-level function name. -/
def documentation (tree : AST) : Except String String := do
  let fdict := ((bodyOf tree).filter isFunctionDefNode).foldl
    (fun d n => dictInsert d (defNameOf n) n) []
  let functions : List (String × String) :=
    fdict.map (fun p => (p.1, defString p.2 p.1 ++ "\n\n"))
  let cdict := ((bodyOf tree).filter isClassDefNode).foldl
    (fun d n => dictInsert d (defNameOf n) n) []
  let classes : List (String × String) :=
    cdict.map (fun p => (p.1, defString p.2 p.1))
  let functions ← classes.foldlM
    (fun f p =>
      match dictBump f p.1 "\n\n" with
      | some f2 => .ok f2
      | none => .error ("KeyError: " ++ p.1))
    functions
  let fnames := sortStr (functions.map (fun p => p.1))
  let cnames := sortStr (classes.map (fun p => p.1))
  let doc := "Functions\n\n" ++
    String.join (fnames.map (fun n => (lookupA functions n).getD ""))
  let doc := doc ++ "Classes\n\n" ++
    String.join (cnames.map (fun n => (lookupA classes n).getD ""))
  .ok doc

/-! ### `Parser.modules` -/

/-- `subnode.names[0]` (an `IndexError` on an impossible empty list). -/
def firstAliasName : List ImpAlias → Except String String
  | [] => .error "IndexError"
  | a :: _ => .ok a.name

/-- The per-node body of the `modules` loop, with the whole resolution
block (`_parse_module`, the `imp` loaders and the `dir()` calls —
external I/O per the specification's collaborator boundary) abstracted
as `resolve`.  An `Import` statement stores the resolution of its first
name only.  An `ImportFrom` statement checks only its first imported
name; when that name is among the resolved names,
`module_info[imported_name]` indexes a list with a string, raising
`TypeError`. -/
def moduleStep (resolve : String → Except String (List String))
    (m : List (String × List String)) (sub : AST) :
    Except String (List (String × List String)) :=
  match sub with
  | .imp _ _ names => do
      let mn ← firstAliasName names
      let info ← resolve mn
      .ok (dictInsert m mn info)
  | .impFrom _ _ moduleName names => do
      let imported ← firstAliasName names
      let info ← resolve moduleName
      if imported ∈ info then .error "TypeError" else .ok m
  | _ => .ok m

/-- `Parser.modules`: fold `moduleStep` over every node below every
top-level statement. -/
def modules (resolve : String → Except String (List String)) (tree : AST) :
    Except String (List (String × List String)) :=
  (bodyOf tree).foldlM
    (fun m node => (walk node).foldlM (moduleStep resolve) m)
    []

/-- The keys `modules` can ever create: the first alias name of each
`Import` statement below a top-level statement. -/
def importFirstNames (tree : AST) : List String :=
  (bodyOf tree).flatMap (fun node =>
    (walk node).filterMap (fun sub =>
      match sub with
      | .imp _ _ (a :: _) => some a.name
      | _ => none))

/-- The name an import alias binds in scope collection. -/
def bindNameOf (a : ImpAlias) : String :=
  match a.asname with
  | some s => s
  | none => a.name

/-! ### The source setter (`Parser.source`)

`new_source` is parsed first (`self._tree = ast.parse(new_source)`) and
only then decoded (`self._source = unicode(new_source, 'UTF-8')`).  Both
collaborators can raise: `ast.parse` on invalid syntax, and the decode
on input that is not valid UTF-8 (for instance latin-1 bytes made
parseable by a `coding:` declaration) or is already a `unicode` object
(a `TypeError`).  The setter is modelled as the induced state
transition, returning the state left behind plus whether it raised.
-/

structure ParserState (σ τ : Type) where
  tree : Option τ
  text : Option σ

/-- The `source` property setter: assign the parsed tree, then assign
the decoded text; an exception in either step aborts the rest. -/
def set_source {σ τ : Type} (parse : σ → Option τ) (decode : σ → Option σ)
    (st : ParserState σ τ) (s : σ) : ParserState σ τ × Bool :=
  match parse s with
  | none => (st, true)
  | some t =>
      match decode s with
      | none => ({ st with tree := some t }, true)
      | some d => ({ tree := some t, text := some d }, false)

/-! ### Specification-side definitions (for refinement comparisons) -/

/-- Modelled from the spec: the compound-statement kinds of §4.6,
`{function-def, class-def, conditional, loop, exception-block}` — where
loops include both `for` and `while` loops. -/
def specCompoundKind : AST → Bool
  | .functionDef _ _ _ _ _ => true
  | .classDef _ _ _ _ => true
  | .ifStmt _ _ _ _ _ => true
  | .forStmt _ _ _ _ _ _ => true
  | .whileStmt _ _ _ _ _ => true
  | .tryExcept _ _ _ _ _ => true
  | .tryFinally _ _ _ _ => true
  | _ => false

/-!
Modelled from the spec: "the maximum line number reached by any
descendant node", as a direct recursion over the tree (to be compared
with the fold over `walk` that the code performs).
-/
mutual
def maxLine (t : AST) : Nat :=
  max (linenoGetD t)
    (match t with
     | .module body => maxLineL body
     | .functionDef _ _ _ args body => max (maxLineL args) (maxLineL body)
     | .classDef _ _ _ body => maxLineL body
     | .assign _ _ targets value => max (maxLineL targets) (maxLine value)
     | .forStmt _ _ target iter body orelse =>
         max (max (maxLine target) (maxLine iter))
           (max (maxLineL body) (maxLineL orelse))
     | .whileStmt _ _ test body orelse =>
         max (maxLine test) (max (maxLineL body) (maxLineL orelse))
     | .ifStmt _ _ test body orelse =>
         max (maxLine test) (max (maxLineL body) (maxLineL orelse))
     | .tryExcept _ _ body handlers orelse =>
         max (maxLineL body) (max (maxLineL handlers) (maxLineL orelse))
     | .tryFinally _ _ body finalbody => max (maxLineL body) (maxLineL finalbody)
     | .exceptHandler _ _ body => maxLineL body
     | .tuple _ _ elts => maxLineL elts
     | .exprStmt _ _ value => maxLine value
     | _ => 0)

def maxLineL : List AST → Nat
  | [] => 0
  | t :: ts => max (maxLine t) (maxLineL ts)
end

/-! ### A size measure on trees, for strong-induction proofs -/

mutual
def sizeA : AST → Nat
  | .module body => 1 + sizeL body
  | .functionDef _ _ _ args body => 1 + sizeL args + sizeL body
  | .classDef _ _ _ body => 1 + sizeL body
  | .assign _ _ targets value => 1 + sizeL targets + sizeA value
  | .forStmt _ _ target iter body orelse =>
      1 + sizeA target + sizeA iter + sizeL body + sizeL orelse
  | .whileStmt _ _ test body orelse => 1 + sizeA test + sizeL body + sizeL orelse
  | .ifStmt _ _ test body orelse => 1 + sizeA test + sizeL body + sizeL orelse
  | .tryExcept _ _ body handlers orelse =>
      1 + sizeL body + sizeL handlers + sizeL orelse
  | .tryFinally _ _ body finalbody => 1 + sizeL body + sizeL finalbody
  | .exceptHandler _ _ body => 1 + sizeL body
  | .imp _ _ _ => 1
  | .impFrom _ _ _ _ => 1
  | .nameRef _ _ _ => 1
  | .tuple _ _ elts => 1 + sizeL elts
  | .strLit _ _ _ => 1
  | .num _ _ => 1
  | .passStmt _ _ => 1
  | .exprStmt _ _ value => 1 + sizeA value

def sizeL : List AST → Nat
  | [] => 0
  | t :: ts => sizeA t + sizeL ts
end

/-! ### Concrete instances used by the claim theorems -/

/-- Source `"def func():\n    pass\n"`. -/
def c1Src : List Char := "def func():\n    pass\n".data

/-- `ast.parse` of `c1Src`. -/
def c1Tree : AST := .module [.functionDef 1 0 "func" [] [.passStmt 2 4]]

/-- `ast.parse` of `"class A(object):\n    pass\n"`. -/
def c2Tree : AST := .module [.classDef 1 0 "A" [.passStmt 2 4]]

/-- A parser collaborator that accepts `c3Input` (as `ast.parse` accepts
latin-1 bytes made legal by a `coding: latin-1` declaration), producing
some tree value. -/
def c3Parse : List Nat → Option Nat := fun _ => some 0

/-- The UTF-8 decode collaborator on byte strings, restricted to the
property needed here: a text containing a lone byte `≥ 0x80` (such as
0xE9) is not valid UTF-8 and `unicode(s, 'UTF-8')` raises on it, while
pure-ASCII byte strings decode to themselves. -/
def c3Decode : List Nat → Option (List Nat) :=
  fun bs => if bs.all (fun b => b < 128) then some bs else none

/-- A parser state holding an existing (tree, text) pair. -/
def c3State : ParserState (List Nat) Nat := ⟨some 7, some [97]⟩

/-- Bytes `'#' 0xE9`: standing for a latin-1-coded source that parses
but does not decode as UTF-8. -/
def c3Input : List Nat := [35, 233]

/-- Source `"x = 1\nx = 2\nx\n"`. -/
def c4Src : List Char := "x = 1\nx = 2\nx\n".data

/-- `ast.parse` of `c4Src`. -/
def c4Tree : AST := .module [
  .assign 1 0 [.nameRef 1 0 "x"] (.num 1 4),
  .assign 2 0 [.nameRef 2 0 "x"] (.num 2 4),
  .exprStmt 3 0 (.nameRef 3 0 "x")]

def c4Vars : Vars := [("x", [⟨1, 0⟩, ⟨2, 0⟩])]

def c5M1 : AST := .functionDef 2 4 "m1" [] [.passStmt 2 14]

def c5M2 : AST := .functionDef 3 4 "m2" [] [.passStmt 3 14]

/-- `ast.parse` of `"class C(object):\n    def m1(self): pass\n    def m2(self): pass\n"`,
restricted to the class node (parameters elided for brevity). -/
def c5Class : AST := .classDef 1 0 "C" [c5M1, c5M2]

/-- A module whose only statement is a function defined on line 5. -/
def c5Module : AST := .module [.functionDef 5 0 "g" [] [.passStmt 6 4]]

/-- `ast.parse` of `"def f(x):\n    pass\n"`, the function node. -/
def c6Fd : AST := .functionDef 1 0 "f" [.nameRef 1 6 "x"] [.passStmt 2 4]

/-- A two-entry stand-in for the `dir(__builtin__) + keyword.kwlist` table. -/
def c7Builtins : List String := ["if", "len"]

/-- `ast.parse` of `"while x:\n    pass\n"`: the while node and module. -/
def c8WhileNode : AST := .whileStmt 1 0 (.nameRef 1 6 "x") [.passStmt 2 4] []

def c8WhileTree : AST := .module [c8WhileNode]

/-- Source `"ab\ncd"`. -/
def c9Src : List Char := "ab\ncd".data

/-- `ast.parse` of `"import a, b\n"`. -/
def c10Tree : AST := .module [.imp 1 0 [⟨"a", none⟩, ⟨"b", none⟩]]

/-- A resolver collaborator mapping each module to one exported name. -/
def c10Resolve : String → Except String (List String) := fun n => .ok [n]

/-! ## Theorems -/

theorem exceptBind_ok {α β : Type} {x : Except String α} {f : α → Except String β}
    {b : β} : (x >>= f) = .ok b ↔ ∃ a, x = .ok a ∧ f a = .ok b := by
  cases x <;> simp [Bind.bind, Except.bind]

theorem subv_refl (vs : Vars) : Subv vs vs := fun _ _ h => h

theorem subv_trans {a b c : Vars} (h1 : Subv a b) (h2 : Subv b c) : Subv a c :=
  fun nm vn h => h2 nm vn (h1 nm vn h)

theorem lookupA_addNode_same (vs : Vars) (nm : String) (vn : VarNode) :
    lookupA (addNode vs nm vn) nm = some (lookupList vs nm ++ [vn]) := by
  induction vs with
  | nil => simp [addNode, lookupA, lookupList]
  | cons p rest ih =>
      obtain ⟨k, l⟩ := p
      by_cases hk : k = nm <;> simp [addNode, lookupA, hk, lookupList, ih]

theorem lookupA_addNode_other (vs : Vars) {nm k : String} (vn : VarNode)
    (h : k ≠ nm) : lookupA (addNode vs nm vn) k = lookupA vs k := by
  induction vs with
  | nil => simp [addNode, lookupA, Ne.symm h]
  | cons p rest ih =>
      obtain ⟨k', l⟩ := p
      by_cases hk : k' = nm
      · subst hk
        simp [addNode, lookupA, Ne.symm h]
      · simp [addNode, lookupA, hk, ih]

theorem memv_addNode_self (vs : Vars) (nm : String) (vn : VarNode) :
    MemV (addNode vs nm vn) nm vn := by
  simp [MemV, lookupList, lookupA_addNode_same]

theorem subv_addNode (vs : Vars) (nm : String) (vn : VarNode) :
    Subv vs (addNode vs nm vn) := by
  intro k v h
  by_cases hk : k = nm
  · subst hk
    simp only [MemV, lookupList, lookupA_addNode_same, Option.getD_some] at h ⊢
    exact List.mem_append_left _ h
  · simpa [MemV, lookupList, lookupA_addNode_other vs vn hk] using h

theorem foldlM_subv {α : Type} {step : Vars → α → Except String Vars}
    (hstep : ∀ vs a vs', step vs a = .ok vs' → Subv vs vs') :
    ∀ (l : List α) (vs vs' : Vars), List.foldlM step vs l = .ok vs' → Subv vs vs' := by
  intro l
  induction l with
  | nil =>
      intro vs vs' h
      simp [List.foldlM, pure, Except.pure] at h
      subst h; exact subv_refl _
  | cons a rest ih =>
      intro vs vs' h
      simp only [List.foldlM_cons] at h
      rcases exceptBind_ok.mp h with ⟨vs1, h1, h2⟩
      exact subv_trans (hstep vs a vs1 h1) (ih vs1 vs' h2)

theorem visitAssignTarget_subv :
    ∀ (t : AST) (vs vs' : Vars), visitAssignTarget vs t = .ok vs' → Subv vs vs' := by
  intro t vs vs' h
  cases t <;> simp only [visitAssignTarget] at h
  all_goals try (cases h; exact subv_refl _)
  · cases h; exact subv_addNode _ _ _
  · refine foldlM_subv ?_ _ vs vs' h
    intro vs a vs' h
    rcases exceptBind_ok.mp h with ⟨id, _, h2⟩
    cases h2
    exact subv_addNode _ _ _

theorem importNamesFold_subv (l c : Nat) :
    ∀ (names : List ImpAlias) (vs : Vars), Subv vs (importNamesFold vs l c names) := by
  intro names
  induction names with
  | nil => intro vs; exact subv_refl _
  | cons a rest ih =>
      intro vs
      exact subv_trans (subv_addNode _ _ _) (ih _)

theorem importNamesFold_mem (l c : Nat) :
    ∀ (names : List ImpAlias) (vs : Vars) (a : ImpAlias), a ∈ names →
      MemV (importNamesFold vs l c names) (bindNameOf a) ⟨l, c⟩ := by
  intro names
  induction names with
  | nil => intro vs a h; cases h
  | cons a0 rest ih =>
      intro vs a h
      rcases List.mem_cons.mp h with h | h
      · subst h
        exact importNamesFold_subv l c rest _ _ _ (by
          simpa [bindNameOf] using memv_addNode_self vs (bindNameOf a) ⟨l, c⟩)
      · exact ih _ a h

theorem addArgs_subv :
    ∀ (args : List AST) (vs vs' : Vars), addArgs vs args = .ok vs' → Subv vs vs' := by
  intro args vs vs' h
  refine foldlM_subv ?_ _ vs vs' h
  intro vs a vs' h
  rcases exceptBind_ok.mp h with ⟨id, _, h2⟩
  cases h2
  exact subv_addNode _ _ _

/-! ### Closed evaluations: the mutation, KeyError, partial-update,
class-cutoff, missing-While and off-by-one counterexamples -/

/-- C1: `variable_indices` is not a pure function of `(tree, text,
offset)`: on the unchanged source `"def func():\n    pass\n"` a first
call at offset 4 (on `func`) returns `[(4, 4)]` and leaves the stored
tree mutated (`_NameParser._visit_def` increments the definition's
`col_offset` in place), so the identical second call returns `[(8, 4)]`. -/
theorem c1_repeated_query_mutation :
    (variable_indices c1Tree c1Src 4).toOption.map Prod.fst = some [(4, 4)] ∧
    ((variable_indices c1Tree c1Src 4).toOption.bind
        (fun p => (variable_indices p.2 c1Src 4).toOption)).map Prod.fst =
      some [(8, 4)] ∧
    ¬([((4 : Nat), (4 : Nat))] = [(8, 4)]) :=
  ⟨rfl, rfl, by decide⟩

/-- C2: `documentation()` is not total: on a module holding a single
class `A` (and no functions) the classes loop executes
`functions[name] += "\n\n"` and raises `KeyError: A`. -/
theorem c2_documentation_keyerror :
    documentation c2Tree = .error "KeyError: A" := rfl

/-- C3 counterexample: when the parse collaborator accepts the input but
the UTF-8 decode raises (here: bytes `'#' 0xE9`, parseable under a
latin-1 coding declaration but not valid UTF-8), the setter raises with
the stored tree already replaced (7 became 0) while the text keeps its
old value — the (tree, text) pair is not replaced together. -/
theorem c3_partial_update_cex :
    set_source c3Parse c3Decode c3State c3Input =
      ({ tree := some 0, text := some [97] }, true) ∧
    c3State.tree = some 7 ∧ ¬((7 : Nat) = 0) :=
  ⟨rfl, rfl, by decide⟩

/-- C5 counterexample: collecting the class scope
`class C: def m1 (line 2); def m2 (line 3)` with cutoff line 2 binds
`m1` and `C` but not `m2`, although `m2` is a class-top-level
definition — class-level definition names are not bound regardless of
the cutoff. -/
theorem c5_class_cutoff_cex :
    c5Class = .classDef 1 0 "C" [c5M1, c5M2] ∧
    defNameVn c5M2 = some ("m2", ⟨3, 4⟩) ∧
    avisit (some 2) [] c5Class = .ok [("m1", [⟨2, 4⟩]), ("C", [⟨1, 0⟩])] ∧
    lookupA [("m1", [(⟨2, 4⟩ : VarNode)]), ("C", [(⟨1, 0⟩ : VarNode)])] "m2" = none :=
  ⟨rfl, rfl, rfl, rfl⟩

/-- C8 counterexample: `while x: pass` is a compound loop statement
spanning lines 1–2, but `nestable_lines` returns no pair for it —
`ast.While` is missing from the isinstance filter. -/
theorem c8_while_missing_cex :
    bodyOf c8WhileTree = [c8WhileNode] ∧ specCompoundKind c8WhileNode = true ∧
    linenoGetD c8WhileNode = 1 ∧ maxLine c8WhileNode = 2 ∧
    nestable_lines c8WhileTree = [] :=
  ⟨rfl, rfl, rfl, rfl, rfl⟩

/-- C9 counterexample: on source `"ab\ncd"` the valid character position
(line 2, column 0) — the `c` — maps to offset 3, but
`_calculate_lineno(3)` returns 1, not 2: the accumulated-length test
uses `>=` where the line-start boundary needs `>`. -/
theorem c9_roundtrip_cex :
    calcIndex c9Src 2 0 = 3 ∧ calcLineno c9Src 3 = 1 ∧
    (splitlinesTrue c9Src).get? 1 = some ['c', 'd'] ∧
    ¬(calcLineno c9Src (calcIndex c9Src 2 0) = 2) :=
  ⟨rfl, rfl, rfl, by decide⟩

/-! ### C3: the source setter -/

/-- C3 (amended): setting the source first parses; on a parse failure
the assignment raises with the previous tree and text both unchanged.
When the parse succeeds the new tree is stored, and then the text is
decoded: if decoding succeeds the pair has been replaced together, but
if decoding raises the setter leaves the tree replaced and the text
unchanged — a partial update. -/
theorem c3_set_source_amended {σ τ : Type} (parse : σ → Option τ)
    (decode : σ → Option σ) (st : ParserState σ τ) (s : σ) :
    (parse s = none → set_source parse decode st s = (st, true)) ∧
    (∀ t, parse s = some t → decode s = none →
        set_source parse decode st s = ({ st with tree := some t }, true)) ∧
    (∀ t d, parse s = some t → decode s = some d →
        set_source parse decode st s = ({ tree := some t, text := some d }, false)) := by
  refine ⟨fun h => ?_, fun t ht hd => ?_, fun t d ht hd => ?_⟩ <;>
    simp [set_source, *]

/-- Witness for `c3_set_source_amended` at the concrete collaborators:
parse succeeds, decode fails, and the resulting state keeps the old
text while holding the new tree. -/
theorem c3_set_source_amended_witness :
    set_source c3Parse c3Decode c3State c3Input =
      ({ c3State with tree := some 0 }, true) :=
  (c3_set_source_amended c3Parse c3Decode c3State c3Input).2.1 0 rfl rfl

/-! ### C9: position round trip -/

theorem linenoGo_roundtrip :
    ∀ (ls : List (List Char)) (line col idx k : Nat) (lc : List Char),
      1 ≤ line → line ≤ ls.length → 1 ≤ col →
      ls.get? (line - 1) = some lc → col ≤ lc.length →
      linenoGo (idx + sumLens (ls.take (line - 1)) + col) ls idx k = k + line := by
  intro ls
  induction ls with
  | nil =>
      intro line col idx k lc h1 h2 _ _ _
      simp at h2; omega
  | cons l rest ih =>
      intro line col idx k lc h1 h2 h3 h4 h5
      match line, h1 with
      | 1, _ =>
          simp only [Nat.sub_self, List.take_zero, sumLens, Nat.add_zero] at h4 ⊢
          simp only [List.get?_cons_zero, Option.some.injEq] at h4
          subst h4
          cases rest with
          | nil => rfl
          | cons r rs =>
              simp only [linenoGo]
              rw [if_pos (by omega)]
      | (n + 2), _ =>
          have hrest : n + 1 ≤ rest.length := by simp at h2; omega
          cases rest with
          | nil => simp at hrest
          | cons r rs =>
              have h4' : (r :: rs).get? (n + 1 - 1) = some lc := by
                simpa using h4
              have htake : (l :: r :: rs).take (n + 2 - 1) =
                  l :: (r :: rs).take (n + 1 - 1) := by simp
              rw [htake]
              simp only [sumLens, linenoGo]
              rw [if_neg (by omega)]
              have := ih (n + 1) col (idx + l.length) (k + 1) lc (by omega)
                (by simpa using hrest) h3 h4' h5
              have harg : idx + (l.length + sumLens ((r :: rs).take (n + 1 - 1))) + col =
                  idx + l.length + sumLens ((r :: rs).take (n + 1 - 1)) + col := by
                omega
              rw [harg, this]
              omega

/-- C9 (amended): offset-to-line is a left inverse of
line/column-to-offset for every character position with column at least
1; at column 0 of any line after the first, `_calculate_lineno` returns
the previous line (its accumulation test uses `>=` at the exact line
boundary), as the counterexample shows. -/
theorem c9_roundtrip_amended (src : List Char) (line col : Nat) (lc : List Char)
    (h1 : 1 ≤ line) (h2 : line ≤ (splitlinesTrue src).length)
    (h3 : 1 ≤ col) (h4 : (splitlinesTrue src).get? (line - 1) = some lc)
    (h5 : col ≤ lc.length) :
    calcLineno src (calcIndex src line col) = line := by
  rcases hsp : splitlinesTrue src with _ | ⟨l0, ls0⟩
  · rw [hsp] at h2; simp at h2; omega
  · rw [hsp] at h2 h4
    have := linenoGo_roundtrip (l0 :: ls0) line col 0 0 lc h1 h2 h3 h4 h5
    simp only [Nat.zero_add] at this
    unfold calcLineno calcIndex
    rw [hsp]
    simpa using this

/-- Witness for `c9_roundtrip_amended`: position (line 2, column 1) of
`"ab\ncd"` maps to offset 4 and back to line 2. -/
theorem c9_roundtrip_amended_witness :
    calcLineno c9Src (calcIndex c9Src 2 1) = 2 :=
  c9_roundtrip_amended c9Src 2 1 ['c', 'd'] (by decide) (by decide) (by decide)
    (by decide) (by decide)

/-! ### Monotonicity of the scope collector: it only ever appends
bindings, so every recorded binding survives the rest of a traversal. -/

theorem sizeA_pos : ∀ t : AST, 1 ≤ sizeA t := by
  intro t; cases t <;> simp [sizeA] <;> omega

theorem visitor_subv_aux :
    ∀ n : Nat,
    (∀ t cut vs vs', 2 * sizeA t ≤ n →
        avisit cut vs t = .ok vs' → Subv vs vs') ∧
    (∀ ts cut vs vs', 2 * sizeL ts + 1 ≤ n →
        visitModuleBody cut vs ts = .ok vs' → Subv vs vs') ∧
    (∀ ts cut vs vs', 2 * sizeL ts + 1 ≤ n →
        visitDefBody cut vs ts = .ok vs' → Subv vs vs') ∧
    (∀ ts cut vs vs', 2 * sizeL ts + 1 ≤ n →
        avisitList cut vs ts = .ok vs' → Subv vs vs') := by
  intro n
  induction n using Nat.strong_induction_on with
  | _ n ih =>
  refine ⟨?_, ?_, ?_, ?_⟩
  · intro t cut vs vs' hsz h
    cases t with
    | module body =>
        simp only [avisit] at h
        split at h
        · simp only [sizeA] at hsz
          exact (ih (2 * sizeL body + 1) (by omega)).2.1 body cut vs vs' le_rfl h
        · cases h; exact subv_refl _
    | functionDef l c nm args body =>
        simp only [avisit] at h
        split at h
        · simp only [sizeA] at hsz
          rcases exceptBind_ok.mp h with ⟨vd, h1, h2⟩
          have s1 : Subv vs vd :=
            (ih (2 * sizeL body + 1) (by omega)).2.2.1 body cut vs vd le_rfl h1
          have s2 : Subv vd (addNode vd nm ⟨l, c⟩) := subv_addNode _ _ _
          split at h2
          · exact subv_trans s1 (subv_trans s2 (addArgs_subv _ _ _ h2))
          · cases h2; exact subv_trans s1 s2
        · cases h; exact subv_refl _
    | classDef l c nm body =>
        simp only [avisit] at h
        split at h
        · simp only [sizeA] at hsz
          rcases exceptBind_ok.mp h with ⟨vd, h1, h2⟩
          cases h2
          exact subv_trans
            ((ih (2 * sizeL body + 1) (by omega)).2.2.1 body cut vs vd le_rfl h1)
            (subv_addNode _ _ _)
        · cases h; exact subv_refl _
    | assign l c targets value =>
        simp only [avisit] at h
        split at h
        · simp only [sizeA] at hsz
          rcases exceptBind_ok.mp h with ⟨vs1, h1, h'⟩
          rcases exceptBind_ok.mp h' with ⟨vs2, h2, h3⟩
          refine subv_trans (foldlM_subv ?_ targets vs vs1 h1) (subv_trans
            ((ih (2 * sizeL targets + 1) (by omega)).2.2.2 targets cut vs1 vs2 le_rfl h2)
            ((ih (2 * sizeA value) (by omega)).1 value cut vs2 vs' le_rfl h3))
          intro a b c' hstep
          exact visitAssignTarget_subv b a c' hstep
        · cases h; exact subv_refl _
    | forStmt l c target iter body orelse =>
        simp only [avisit] at h
        split at h
        · simp only [sizeA] at hsz
          rcases exceptBind_ok.mp h with ⟨vs1, h1, h'⟩
          rcases exceptBind_ok.mp h' with ⟨vs2, h2, h''⟩
          rcases exceptBind_ok.mp h'' with ⟨vs3, h3, h'''⟩
          rcases exceptBind_ok.mp h''' with ⟨vs4, h4, h5⟩
          exact subv_trans (visitAssignTarget_subv target vs vs1 h1) (subv_trans
            ((ih (2 * sizeA target) (by omega)).1 target cut vs1 vs2 le_rfl h2)
            (subv_trans
              ((ih (2 * sizeA iter) (by omega)).1 iter cut vs2 vs3 le_rfl h3)
              (subv_trans
                ((ih (2 * sizeL body + 1) (by omega)).2.2.2 body cut vs3 vs4 le_rfl h4)
                ((ih (2 * sizeL orelse + 1) (by omega)).2.2.2 orelse cut vs4 vs' le_rfl h5))))
        · cases h; exact subv_refl _
    | whileStmt l c test body orelse =>
        simp only [avisit] at h
        split at h
        · simp only [sizeA] at hsz
          rcases exceptBind_ok.mp h with ⟨vs1, h1, h'⟩
          rcases exceptBind_ok.mp h' with ⟨vs2, h2, h3⟩
          exact subv_trans
            ((ih (2 * sizeA test) (by omega)).1 test cut vs vs1 le_rfl h1)
            (subv_trans
              ((ih (2 * sizeL body + 1) (by omega)).2.2.2 body cut vs1 vs2 le_rfl h2)
              ((ih (2 * sizeL orelse + 1) (by omega)).2.2.2 orelse cut vs2 vs' le_rfl h3))
        · cases h; exact subv_refl _
    | ifStmt l c test body orelse =>
        simp only [avisit] at h
        split at h
        · simp only [sizeA] at hsz
          rcases exceptBind_ok.mp h with ⟨vs1, h1, h'⟩
          rcases exceptBind_ok.mp h' with ⟨vs2, h2, h3⟩
          exact subv_trans
            ((ih (2 * sizeA test) (by omega)).1 test cut vs vs1 le_rfl h1)
            (subv_trans
              ((ih (2 * sizeL body + 1) (by omega)).2.2.2 body cut vs1 vs2 le_rfl h2)
              ((ih (2 * sizeL orelse + 1) (by omega)).2.2.2 orelse cut vs2 vs' le_rfl h3))
        · cases h; exact subv_refl _
    | tryExcept l c body handlers orelse =>
        simp only [avisit] at h
        split at h
        · simp only [sizeA] at hsz
          rcases exceptBind_ok.mp h with ⟨vs1, h1, h'⟩
          rcases exceptBind_ok.mp h' with ⟨vs2, h2, h3⟩
          exact subv_trans
            ((ih (2 * sizeL body + 1) (by omega)).2.2.2 body cut vs vs1 le_rfl h1)
            (subv_trans
              ((ih (2 * sizeL handlers + 1) (by omega)).2.2.2 handlers cut vs1 vs2 le_rfl h2)
              ((ih (2 * sizeL orelse + 1) (by omega)).2.2.2 orelse cut vs2 vs' le_rfl h3))
        · cases h; exact subv_refl _
    | tryFinally l c body finalbody =>
        simp only [avisit] at h
        split at h
        · simp only [sizeA] at hsz
          rcases exceptBind_ok.mp h with ⟨vs1, h1, h2⟩
          exact subv_trans
            ((ih (2 * sizeL body + 1) (by omega)).2.2.2 body cut vs vs1 le_rfl h1)
            ((ih (2 * sizeL finalbody + 1) (by omega)).2.2.2 finalbody cut vs1 vs' le_rfl h2)
        · cases h; exact subv_refl _
    | exceptHandler l c body =>
        simp only [avisit] at h
        split at h
        · simp only [sizeA] at hsz
          exact (ih (2 * sizeL body + 1) (by omega)).2.2.2 body cut vs vs' le_rfl h
        · cases h; exact subv_refl _
    | imp l c names =>
        simp only [avisit] at h
        split at h
        · cases h; exact importNamesFold_subv l c names vs
        · cases h; exact subv_refl _
    | impFrom l c m names =>
        simp only [avisit] at h
        split at h
        · cases h; exact importNamesFold_subv l c names vs
        · cases h; exact subv_refl _
    | nameRef l c id =>
        simp only [avisit] at h
        split at h <;> (cases h; exact subv_refl _)
    | tuple l c elts =>
        simp only [avisit] at h
        split at h
        · simp only [sizeA] at hsz
          exact (ih (2 * sizeL elts + 1) (by omega)).2.2.2 elts cut vs vs' le_rfl h
        · cases h; exact subv_refl _
    | strLit l c s =>
        simp only [avisit] at h
        split at h <;> (cases h; exact subv_refl _)
    | num l c =>
        simp only [avisit] at h
        split at h <;> (cases h; exact subv_refl _)
    | passStmt l c =>
        simp only [avisit] at h
        split at h <;> (cases h; exact subv_refl _)
    | exprStmt l c value =>
        simp only [avisit] at h
        split at h
        · simp only [sizeA] at hsz
          exact (ih (2 * sizeA value) (by omega)).1 value cut vs vs' le_rfl h
        · cases h; exact subv_refl _
  · intro ts cut vs vs' hsz h
    cases ts with
    | nil => simp only [visitModuleBody] at h; cases h; exact subv_refl _
    | cons sub rest =>
        simp only [visitModuleBody] at h
        simp only [sizeL] at hsz
        have hrest : ∀ vs1, visitModuleBody cut vs1 rest = .ok vs' → Subv vs1 vs' :=
          fun vs1 h2 =>
            (ih (2 * sizeL rest + 1) (by have := sizeA_pos sub; omega)).2.1
              rest cut vs1 vs' le_rfl h2
        rcases hd : defNameVn sub with _ | ⟨nm, vn⟩
        · rw [hd] at h
          rcases exceptBind_ok.mp h with ⟨vs1, h1, h2⟩
          exact subv_trans
            ((ih (2 * sizeA sub) (by omega)).1 sub cut vs vs1 le_rfl h1) (hrest vs1 h2)
        · rw [hd] at h
          rcases exceptBind_ok.mp h with ⟨vs1, h1, h2⟩
          cases h1
          exact subv_trans (subv_addNode _ _ _) (hrest _ h2)
  · intro ts cut vs vs' hsz h
    cases ts with
    | nil => simp only [visitDefBody] at h; cases h; exact subv_refl _
    | cons sub rest =>
        simp only [visitDefBody] at h
        simp only [sizeL] at hsz
        have hrest : ∀ vs1, visitDefBody cut vs1 rest = .ok vs' → Subv vs1 vs' :=
          fun vs1 h2 =>
            (ih (2 * sizeL rest + 1) (by have := sizeA_pos sub; omega)).2.2.1
              rest cut vs1 vs' le_rfl h2
        rcases hd : defNameVn sub with _ | ⟨nm, vn⟩
        · rw [hd] at h
          rcases exceptBind_ok.mp h with ⟨vs1, h1, h2⟩
          exact subv_trans
            ((ih (2 * sizeA sub) (by omega)).1 sub cut vs vs1 le_rfl h1) (hrest vs1 h2)
        · rw [hd] at h
          by_cases hc : leCut (linenoGetD sub) cut = true
          · rcases exceptBind_ok.mp (hc ▸ h : (if true = true then
                (Except.ok (addNode vs nm vn) >>= fun y => visitDefBody cut y rest)
              else (avisit cut vs sub >>= fun y => visitDefBody cut y rest)) =
                .ok vs') with ⟨vs1, h1, h2⟩
            cases h1
            exact subv_trans (subv_addNode _ _ _) (hrest _ h2)
          · simp only [Bool.not_eq_true] at hc
            rcases exceptBind_ok.mp (hc ▸ h : (if false = true then
                (Except.ok (addNode vs nm vn) >>= fun y => visitDefBody cut y rest)
              else (avisit cut vs sub >>= fun y => visitDefBody cut y rest)) =
                .ok vs') with ⟨vs1, h1, h2⟩
            exact subv_trans
              ((ih (2 * sizeA sub) (by omega)).1 sub cut vs vs1 le_rfl h1) (hrest vs1 h2)
  · intro ts cut vs vs' hsz h
    cases ts with
    | nil => simp only [avisitList] at h; cases h; exact subv_refl _
    | cons sub rest =>
        simp only [avisitList] at h
        simp only [sizeL] at hsz
        rcases exceptBind_ok.mp h with ⟨vs1, h1, h2⟩
        exact subv_trans
          ((ih (2 * sizeA sub) (by omega)).1 sub cut vs vs1 le_rfl h1)
          ((ih (2 * sizeL rest + 1) (by have := sizeA_pos sub; omega)).2.2.2
            rest cut vs1 vs' le_rfl h2)

/-- The collector only appends: a binding present before `visit`
is present after it. -/
theorem avisit_subv {t : AST} {cut : Cut} {vs vs' : Vars}
    (h : avisit cut vs t = .ok vs') : Subv vs vs' :=
  (visitor_subv_aux (2 * sizeA t)).1 t cut vs vs' le_rfl h

theorem visitModuleBody_subv {ts : List AST} {cut : Cut} {vs vs' : Vars}
    (h : visitModuleBody cut vs ts = .ok vs') : Subv vs vs' :=
  (visitor_subv_aux (2 * sizeL ts + 1)).2.1 ts cut vs vs' le_rfl h

theorem visitDefBody_subv {ts : List AST} {cut : Cut} {vs vs' : Vars}
    (h : visitDefBody cut vs ts = .ok vs' ) : Subv vs vs' :=
  (visitor_subv_aux (2 * sizeL ts + 1)).2.2.1 ts cut vs vs' le_rfl h

/-! ### C5: definition names during scope collection -/

theorem visitModuleBody_mem :
    ∀ (body : List AST) (cut : Cut) (vs vs' : Vars),
      visitModuleBody cut vs body = .ok vs' →
      ∀ sub ∈ body, ∀ nm vn, defNameVn sub = some (nm, vn) → MemV vs' nm vn := by
  intro body
  induction body with
  | nil => intro cut vs vs' _ sub hs; cases hs
  | cons s0 rest ih =>
      intro cut vs vs' h sub hs nm vn hd
      rcases List.mem_cons.mp hs with he | hmem
      · subst he
        simp only [visitModuleBody] at h
        rw [hd] at h
        rcases exceptBind_ok.mp h with ⟨vs1, h1, h2⟩
        cases h1
        exact visitModuleBody_subv h2 nm vn (memv_addNode_self _ _ _)
      · simp only [visitModuleBody] at h
        rcases hd0 : defNameVn s0 with _ | ⟨nm0, vn0⟩ <;> rw [hd0] at h <;>
          rcases exceptBind_ok.mp h with ⟨vs1, _, h2⟩ <;>
          exact ih cut vs1 vs' h2 sub hmem nm vn hd

theorem visitDefBody_mem :
    ∀ (body : List AST) (cut : Cut) (vs vs' : Vars),
      visitDefBody cut vs body = .ok vs' →
      ∀ sub ∈ body, ∀ nm vn, defNameVn sub = some (nm, vn) →
        leCut (linenoGetD sub) cut = true → MemV vs' nm vn := by
  intro body
  induction body with
  | nil => intro cut vs vs' _ sub hs; cases hs
  | cons s0 rest ih =>
      intro cut vs vs' h sub hs nm vn hd hle
      rcases List.mem_cons.mp hs with he | hmem
      · subst he
        simp only [visitDefBody] at h
        rw [hd] at h
        rcases exceptBind_ok.mp (hle ▸ h : (if true = true then
            (Except.ok (addNode vs nm vn) >>= fun y => visitDefBody cut y rest)
          else (avisit cut vs sub >>= fun y => visitDefBody cut y rest)) =
            .ok vs') with ⟨vs1, h1, h2⟩
        cases h1
        exact visitDefBody_subv h2 nm vn (memv_addNode_self _ _ _)
      · simp only [visitDefBody] at h
        rcases hd0 : defNameVn s0 with _ | ⟨nm0, vn0⟩
        · rw [hd0] at h
          rcases exceptBind_ok.mp h with ⟨vs1, _, h2⟩
          exact ih cut vs1 vs' h2 sub hmem nm vn hd hle
        · rw [hd0] at h
          by_cases hc : leCut (linenoGetD s0) cut = true
          · rcases exceptBind_ok.mp (hc ▸ h : (if true = true then
                (Except.ok (addNode vs nm0 vn0) >>= fun y => visitDefBody cut y rest)
              else (avisit cut vs s0 >>= fun y => visitDefBody cut y rest)) =
                .ok vs') with ⟨vs1, _, h2⟩
            exact ih cut vs1 vs' h2 sub hmem nm vn hd hle
          · simp only [Bool.not_eq_true] at hc
            rcases exceptBind_ok.mp (hc ▸ h : (if false = true then
                (Except.ok (addNode vs nm0 vn0) >>= fun y => visitDefBody cut y rest)
              else (avisit cut vs s0 >>= fun y => visitDefBody cut y rest)) =
                .ok vs') with ⟨vs1, _, h2⟩
            exact ih cut vs1 vs' h2 sub hmem nm vn hd hle

/-- C5 (amended): collecting a scope binds function/class names found at
its top level, but the cutoff is honoured differently by scope kind:
module-top-level definition names are bound as a single Binding for
every cutoff, whereas class-top-level (and function-top-level)
definition names are bound only when the definition's line does not
exceed the cutoff — `_visit_def` tests `subnode.lineno <= self.lineno`
while `visit_Module` does not (see the counterexample for the beyond-
cutoff class case). -/
theorem c5_defnames_amended :
    (∀ (cut : Cut) (vs : Vars) (body : List AST) (vs' : Vars),
        visitModuleBody cut vs body = .ok vs' →
        ∀ sub ∈ body, ∀ nm vn, defNameVn sub = some (nm, vn) → MemV vs' nm vn) ∧
    (∀ (cut : Cut) (l c : Nat) (nm : String) (body : List AST) (vs vs' : Vars),
        leCut l cut = true →
        avisit cut vs (.classDef l c nm body) = .ok vs' →
        ∀ sub ∈ body, ∀ snm svn, defNameVn sub = some (snm, svn) →
          leCut (linenoGetD sub) cut = true → MemV vs' snm svn) := by
  constructor
  · intro cut vs body vs' h
    exact visitModuleBody_mem body cut vs vs' h
  · intro cut l c nm body vs vs' hguard h sub hmem snm svn hd hle
    simp only [avisit] at h
    rw [if_pos (by simp [visitGuard, linenoOf, hguard])] at h
    rcases exceptBind_ok.mp h with ⟨vd, h1, h2⟩
    cases h2
    exact subv_addNode vd nm ⟨l, c⟩ snm svn
      (visitDefBody_mem body cut vs vd h1 sub hmem snm svn hd hle)

/-- Witness for `c5_defnames_amended`: a module-level function defined
on line 5 is bound even with cutoff 1, and `m1` (line 2) is bound when
collecting `c5Class` with cutoff 2. -/
theorem c5_defnames_amended_witness :
    MemV [("g", [⟨5, 0⟩])] "g" ⟨5, 0⟩ ∧
    MemV [("m1", [⟨2, 4⟩]), ("C", [⟨1, 0⟩])] "m1" ⟨2, 4⟩ :=
  ⟨c5_defnames_amended.1 (some 1) [] [.functionDef 5 0 "g" [] [.passStmt 6 4]]
      [("g", [⟨5, 0⟩])] rfl _ (List.mem_cons_self _ _) "g" ⟨5, 0⟩ rfl,
   c5_defnames_amended.2 (some 2) 1 0 "C" [c5M1, c5M2] []
      [("m1", [⟨2, 4⟩]), ("C", [⟨1, 0⟩])] rfl rfl c5M1 (List.mem_cons_self _ _)
      "m1" ⟨2, 4⟩ rfl rfl⟩

/-! ### C6: parameter visibility -/

theorem addArgs_names :
    ∀ (args : List AST) (vs : Vars),
      (∀ a ∈ args, ∃ la ca id, a = AST.nameRef la ca id) →
      ∃ vr, addArgs vs args = .ok vr ∧ Subv vs vr ∧
        ∀ la ca id, AST.nameRef la ca id ∈ args → MemV vr id ⟨la, ca⟩ := by
  intro args
  induction args with
  | nil =>
      intro vs _
      exact ⟨vs, rfl, subv_refl vs, fun la ca id h => absurd h (List.not_mem_nil _)⟩
  | cons a rest ih =>
      intro vs hnames
      rcases hnames a (List.mem_cons_self _ _) with ⟨la, ca, id, rfl⟩
      have hstep : addArgs vs (AST.nameRef la ca id :: rest) =
          addArgs (addNode vs id ⟨la, ca⟩) rest := rfl
      rcases ih (addNode vs id ⟨la, ca⟩)
          (fun a ha => hnames a (List.mem_cons_of_mem _ ha)) with
        ⟨vr, heq, hsub, hmem⟩
      refine ⟨vr, hstep ▸ heq, subv_trans (subv_addNode _ _ _) hsub, ?_⟩
      intro la' ca' id' hmem'
      rcases List.mem_cons.mp hmem' with he | hm
      · cases he
        exact hsub id ⟨la, ca⟩ (memv_addNode_self _ _ _)
      · exact hmem la' ca' id' hm

/-- C6: parameters are bound exactly when the function is the scope
being collected and its header line is strictly below the cutoff.  With
the header at or beyond the cutoff (a query on the signature line), the
collection equals the parameterless `_visit_def` result; with the
header strictly below (a query in the body), every parameter name is
bound at the parameter's own position.  A function appearing as a
statement of an enclosing module scope contributes only its name. -/
theorem c6_parameter_visibility (cut : Cut) (l c : Nat) (nm : String)
    (args body : List AST) (vs vd : Vars)
    (hguard : leCut l cut = true)
    (hdef : visitDefBody cut vs body = .ok vd) :
    (ltCut l cut = false →
        avisit cut vs (.functionDef l c nm args body) = .ok (addNode vd nm ⟨l, c⟩)) ∧
    (ltCut l cut = true →
        (∀ a ∈ args, ∃ la ca id, a = AST.nameRef la ca id) →
        ∃ vr, avisit cut vs (.functionDef l c nm args body) = .ok vr ∧
          ∀ la ca id, AST.nameRef la ca id ∈ args → MemV vr id ⟨la, ca⟩) ∧
    (∀ vm, visitModuleBody cut vs [.functionDef l c nm args body] = .ok vm →
        vm = addNode vs nm ⟨l, c⟩) := by
  refine ⟨?_, ?_, ?_⟩
  · intro hlt
    simp only [avisit]
    rw [if_pos (by simp [visitGuard, linenoOf, hguard])]
    rw [hdef]
    simp only [Bind.bind, Except.bind, hlt]
    rfl
  · intro hlt hnames
    rcases addArgs_names args (addNode vd nm ⟨l, c⟩) hnames with ⟨vr, heq, _, hmem⟩
    refine ⟨vr, ?_, hmem⟩
    simp only [avisit]
    rw [if_pos (by simp [visitGuard, linenoOf, hguard])]
    rw [hdef]
    simp only [Bind.bind, Except.bind, hlt]
    exact heq
  · intro vm h
    simp only [visitModuleBody, defNameVn] at h
    rcases exceptBind_ok.mp h with ⟨vs1, h1, h2⟩
    cases h1
    cases h2
    rfl

/-- Witness for `c6_parameter_visibility` on `def f(x): pass`: with the
cutoff on the signature line (1) the collection is `{f}` without the
parameter; with the cutoff inside the body (2) the parameter `x` is
bound at (1, 6). -/
theorem c6_parameter_visibility_witness :
    avisit (some 1) [] c6Fd = .ok [("f", [⟨1, 0⟩])] ∧
    ∃ vr, avisit (some 2) [] c6Fd = .ok vr ∧ MemV vr "x" ⟨1, 6⟩ := by
  constructor
  · exact (c6_parameter_visibility (some 1) 1 0 "f" [.nameRef 1 6 "x"]
      [.passStmt 2 4] [] [] rfl rfl).1 rfl
  · rcases (c6_parameter_visibility (some 2) 1 0 "f" [.nameRef 1 6 "x"]
        [.passStmt 2 4] [] [] rfl rfl).2.1 rfl
        (fun a ha => ⟨1, 6, "x", by simpa using ha⟩) with ⟨vr, heq, hmem⟩
    exact ⟨vr, heq, hmem 1 6 "x" (List.mem_cons_self _ _)⟩

/-! ### C4: the half-open validity window of `variable_indices` -/

/-- C4: when the scope resolved for the query holds exactly two bindings
of the queried identifier, at offsets `A < B`, the returned occurrences
are restricted to the half-open window: a query offset in `[A, B)` only
yields occurrences with `A ≤ offset < B`, and a query offset at or after
`B` only yields occurrences at or after `B`. -/
theorem c4_window (tree : AST) (src : List Char) (index A B : Nat) (sn : AST)
    (vs : Vars)
    (hlen : index < src.length)
    (hw : ¬ wordAt src index = "")
    (hs : scopeSearch (wordAt src index) (scopesAt tree src index) =
      .ok (some (sn, vs)))
    (hsort : bindingIndices src vs (wordAt src index) = [A, B])
    (hAB : A < B) :
    ∀ r tr, variable_indices tree src index = .ok (r, tr) →
      ((A ≤ index → index < B → ∀ p ∈ r, A ≤ p.1 ∧ p.1 < B) ∧
       (B ≤ index → ∀ p ∈ r, B ≤ p.1)) := by
  intro r tr heq
  simp only [variable_indices] at heq
  rw [if_neg (by omega)] at heq
  rw [if_neg hw] at heq
  rw [hs] at heq
  simp only [Bind.bind, Except.bind] at heq
  rw [hsort] at heq
  simp only [Except.ok.injEq, Prod.mk.injEq] at heq
  obtain ⟨hr, -⟩ := heq
  constructor
  · intro hA hB p hp
    rw [← hr] at hp
    have hfind1 : (([A, B].reverse).find? (fun idx => idx ≤ index)).getD 0 = A := by
      simp only [List.reverse_cons, List.reverse_nil, List.nil_append,
        List.cons_append, List.find?]
      rw [decide_eq_false (by omega : ¬ B ≤ index)]
      rw [decide_eq_true (hA : A ≤ index)]
      rfl
    have hfind2 : [A, B].find? (fun idx => index < idx) = some B := by
      simp only [List.find?]
      rw [decide_eq_false (by omega : ¬ index < A)]
      rw [decide_eq_true (hB : index < B)]
    rw [hfind1, hfind2] at hp
    rcases List.mem_map.mp hp with ⟨idx, hidx, rfl⟩
    rcases List.mem_filter.mp hidx with ⟨-, hcond⟩
    simp only [ltOpt, Bool.and_eq_true, decide_eq_true_eq] at hcond
    exact hcond
  · intro hBle p hp
    rw [← hr] at hp
    have hfind1 : (([A, B].reverse).find? (fun idx => idx ≤ index)).getD 0 = B := by
      simp only [List.reverse_cons, List.reverse_nil, List.nil_append,
        List.cons_append, List.find?]
      rw [decide_eq_true (hBle : B ≤ index)]
      rfl
    have hfind2 : [A, B].find? (fun idx => index < idx) = none := by
      simp only [List.find?]
      rw [decide_eq_false (by omega : ¬ index < A)]
      rw [decide_eq_false (by omega : ¬ index < B)]
    rw [hfind1, hfind2] at hp
    rcases List.mem_map.mp hp with ⟨idx, hidx, rfl⟩
    rcases List.mem_filter.mp hidx with ⟨-, hcond⟩
    simp only [ltOpt, Bool.and_eq_true, decide_eq_true_eq] at hcond
    exact hcond.1

/-- Witness for `c4_window` on `"x = 1\nx = 2\nx\n"`: the module scope
holds bindings of `x` at offsets 0 and 6; the query at offset 0 returns
`[(0, 1)]`, inside the window `[0, 6)`. -/
theorem c4_window_witness :
    (∀ p ∈ [((0 : Nat), (1 : Nat))], 0 ≤ p.1 ∧ p.1 < 6) ∧
    variable_indices c4Tree c4Src 0 = .ok ([(0, 1)], c4Tree) := by
  constructor
  · exact ((c4_window c4Tree c4Src 0 0 6 c4Tree c4Vars (by decide) (by decide)
      rfl rfl (by decide)) [(0, 1)] c4Tree rfl).1 (by decide) (by decide)
  · rfl

/-! ### C7: the builtin table in `variables` -/

theorem lookupA_mapVal {α β : Type} (f : α → β) :
    ∀ (l : List (String × α)) (k : String),
      lookupA (l.map (fun p => (p.1, f p.2))) k = (lookupA l k).map f := by
  intro l
  induction l with
  | nil => intro k; simp [lookupA]
  | cons p rest ih =>
      intro k
      obtain ⟨k', v⟩ := p
      by_cases hk : k' = k <;> simp [lookupA, hk, ih]

theorem lookupA_append {α : Type} :
    ∀ (l1 l2 : List (String × α)) (k : String),
      lookupA (l1 ++ l2) k =
        (match lookupA l1 k with
         | some v => some v
         | none => lookupA l2 k) := by
  intro l1 l2
  induction l1 with
  | nil => intro k; simp [lookupA]
  | cons p rest ih =>
      intro k
      obtain ⟨k', v⟩ := p
      by_cases hk : k' = k <;> simp [lookupA, hk, ih]

theorem lookupA_any_key :
    ∀ (acc : List (String × List Nat)) (b : String),
      acc.any (fun p => p.1 = b) = (lookupA acc b).isSome := by
  intro acc b
  induction acc with
  | nil => simp [lookupA]
  | cons p rest ih =>
      obtain ⟨k, v⟩ := p
      by_cases hk : k = b <;> simp [lookupA, hk, ih]

theorem addBuiltins_preserves :
    ∀ (bs : List String) (acc : List (String × List Nat)) (k : String)
      (v : List Nat), lookupA acc k = some v →
      lookupA (addBuiltins acc bs) k = some v := by
  intro bs
  induction bs with
  | nil => intro acc k v h; exact h
  | cons b0 rest ih =>
      intro acc k v h
      simp only [addBuiltins, List.foldl_cons]
      by_cases hany : acc.any (fun p => p.1 = b0) = true
      · rw [if_pos hany]
        exact ih acc k v h
      · rw [if_neg hany]
        refine ih _ k v ?_
        rw [lookupA_append, h]

theorem addBuiltins_adds :
    ∀ (bs : List String) (acc : List (String × List Nat)) (b : String),
      b ∈ bs → lookupA acc b = none →
      lookupA (addBuiltins acc bs) b = some [] := by
  intro bs
  induction bs with
  | nil => intro acc b hb; cases hb
  | cons b0 rest ih =>
      intro acc b hb hnone
      simp only [addBuiltins, List.foldl_cons]
      by_cases hb0 : b0 = b
      · subst hb0
        have hany : acc.any (fun p => p.1 = b0) = false := by
          rw [lookupA_any_key, hnone]; rfl
        rw [hany]
        simp only [Bool.false_eq_true, if_false]
        refine addBuiltins_preserves rest _ b0 [] ?_
        rw [lookupA_append, hnone]
        simp [lookupA]
      · have hb' : b ∈ rest := by
          rcases List.mem_cons.mp hb with h | h
          · exact absurd h.symm hb0
          · exact h
        by_cases hany : acc.any (fun p => p.1 = b0) = true
        · rw [if_pos hany]
          exact ih acc b hb' hnone
        · rw [if_neg hany]
          refine ih _ b hb' ?_
          rw [lookupA_append, hnone]
          simp [lookupA, hb0]

theorem addBuiltins_entries :
    ∀ (bs : List String) (acc : List (String × List Nat)) (p : String × List Nat),
      p ∈ addBuiltins acc bs → p ∈ acc ∨ (p.1 ∈ bs ∧ p.2 = []) := by
  intro bs
  induction bs with
  | nil => intro acc p h; exact Or.inl h
  | cons b0 rest ih =>
      intro acc p h
      simp only [addBuiltins, List.foldl_cons] at h
      by_cases hany : acc.any (fun p => p.1 = b0) = true
      · rw [if_pos hany] at h
        rcases ih acc p h with h' | ⟨hk, hv⟩
        · exact Or.inl h'
        · exact Or.inr ⟨List.mem_cons_of_mem _ hk, hv⟩
      · rw [if_neg hany] at h
        rcases ih _ p h with h' | ⟨hk, hv⟩
        · rcases List.mem_append.mp h' with h'' | h''
          · exact Or.inl h''
          · rcases List.mem_singleton.mp h'' with rfl
            exact Or.inr ⟨List.mem_cons_self _ _, rfl⟩
        · exact Or.inr ⟨List.mem_cons_of_mem _ hk, hv⟩

/-- C7: every reserved/builtin name appears in any successful
`variables()` result, with the sentinel `-1` whenever the scope
collection did not bind it; on empty source every builtin maps to `-1`
and nothing else is in the result. -/
theorem c7_builtin_table :
    (∀ (builtins : List String) (tree : AST) (src : List Char) (index : Nat)
        (m : List (String × Int)) (vars : Vars),
        collectAt tree src index = .ok vars →
        variablesQ builtins tree src index = .ok m →
        ∀ b ∈ builtins, ∃ v, lookupA m b = some v ∧
          (lookupA vars b = none → v = -1)) ∧
    (∀ builtins : List String, ∃ m,
        variablesQ builtins (.module []) [] 0 = .ok m ∧
        (∀ b ∈ builtins, lookupA m b = some (-1)) ∧
        (∀ p ∈ m, p.1 ∈ builtins ∧ p.2 = (-1 : Int))) := by
  constructor
  · intro builtins tree src index m vars hc hq b hb
    simp only [variablesQ] at hq
    rw [hc] at hq
    simp only [Bind.bind, Except.bind, Except.ok.injEq] at hq
    subst hq
    set varsIdx := vars.map (fun p =>
      (p.1, p.2.map (fun vn => calcIndex src vn.lineno vn.col_offset))) with hvi
    by_cases hnone : lookupA vars b = none
    · have hvidx : lookupA varsIdx b = none := by
        rw [hvi, lookupA_mapVal, hnone]; rfl
      have := addBuiltins_adds builtins varsIdx b hb hvidx
      refine ⟨-1, ?_, fun _ => rfl⟩
      rw [lookupA_mapVal, this]
      rfl
    · rcases Option.ne_none_iff_exists'.mp hnone with ⟨v0, hv0⟩
      have hvidx : lookupA varsIdx b =
          some (v0.map (fun vn => calcIndex src vn.lineno vn.col_offset)) := by
        rw [hvi, lookupA_mapVal, hv0]; rfl
      have := addBuiltins_preserves builtins varsIdx b _ hvidx
      refine ⟨maxOrNeg (v0.map (fun vn => calcIndex src vn.lineno vn.col_offset)),
        ?_, fun hcon => absurd hcon hnone⟩
      rw [lookupA_mapVal, this]
      rfl
  · intro builtins
    refine ⟨(addBuiltins [] builtins).map (fun p => (p.1, maxOrNeg p.2)), ?_, ?_, ?_⟩
    · simp only [variablesQ]
      have hc : collectAt (.module []) [] 0 = .ok [] := rfl
      rw [hc]
      simp only [Bind.bind, Except.bind, List.map_nil]
    · intro b hb
      have := addBuiltins_adds builtins [] b hb rfl
      rw [lookupA_mapVal, this]
      rfl
    · intro p hp
      rcases List.mem_map.mp hp with ⟨q, hq, rfl⟩
      rcases addBuiltins_entries builtins [] q hq with h' | ⟨hk, hv⟩
      · cases h'
      · exact ⟨hk, by rw [hv]; rfl⟩

/-- Witness for `c7_builtin_table` with the two-name builtin table on
empty source and on `"x = 1\nx = 2\nx\n"` at offset 0. -/
theorem c7_builtin_table_witness :
    (∃ v, lookupA [(("x" : String), (0 : Int)), ("if", -1), ("len", -1)] "len" =
        some v ∧
        (lookupA [(("x" : String), [(⟨1, 0⟩ : VarNode), ⟨1, 0⟩])] "len" = none →
          v = -1)) ∧
    ∃ m, variablesQ c7Builtins (.module []) [] 0 = .ok m ∧
      (∀ b ∈ c7Builtins, lookupA m b = some (-1)) ∧
      (∀ p ∈ m, p.1 ∈ c7Builtins ∧ p.2 = (-1 : Int)) :=
  ⟨c7_builtin_table.1 c7Builtins c4Tree c4Src 0
      [("x", 0), ("if", -1), ("len", -1)] [("x", [⟨1, 0⟩, ⟨1, 0⟩])] rfl rfl "len"
      (List.mem_cons_of_mem _ (List.mem_cons_self _ _)),
   c7_builtin_table.2 c7Builtins⟩

/-! ### C8: `nestable_lines` -/

theorem foldl_max_init : ∀ (l : List Nat) (i : Nat),
    l.foldl Nat.max i = max i (l.foldl Nat.max 0) := by
  intro l
  induction l with
  | nil => intro i; simp
  | cons x xs ih =>
      intro i
      simp only [List.foldl_cons]
      rw [ih (max i x), ih (max 0 x), Nat.zero_max, Nat.max_assoc]

theorem listMax_cons (x : Nat) (l : List Nat) :
    (x :: l).foldl Nat.max 0 = max x (l.foldl Nat.max 0) := by
  simp only [List.foldl_cons]
  rw [foldl_max_init l (max 0 x), Nat.zero_max]

theorem listMax_append (a b : List Nat) :
    (a ++ b).foldl Nat.max 0 = max (a.foldl Nat.max 0) (b.foldl Nat.max 0) := by
  rw [List.foldl_append, foldl_max_init b (a.foldl Nat.max 0)]

theorem walkEnd_foldl : ∀ (l : List AST) (e : Nat),
    l.foldl (fun e sub => match linenoOf sub with
      | some l' => if e < l' then l' else e
      | none => e) e = (l.map linenoGetD).foldl Nat.max e := by
  intro l
  induction l with
  | nil => intro e; rfl
  | cons x xs ih =>
      intro e
      simp only [List.foldl_cons, List.map_cons]
      have hstep : (match linenoOf x with
          | some l' => if e < l' then l' else e
          | none => e) = Nat.max e (linenoGetD x) := by
        rcases hx : linenoOf x with _ | lx
        · simp [linenoGetD, hx]
        · simp only [linenoGetD, hx, Option.getD_some]
          by_cases hel : e < lx
          · rw [if_pos hel]
            exact (Nat.max_eq_right (Nat.le_of_lt hel)).symm
          · rw [if_neg hel]
            exact (Nat.max_eq_left (Nat.le_of_not_lt hel)).symm
      rw [hstep]
      exact ih _

theorem walkMax_aux : ∀ n : Nat,
    (∀ t, 2 * sizeA t ≤ n →
        ((walk t).map linenoGetD).foldl Nat.max 0 = maxLine t) ∧
    (∀ ts, 2 * sizeL ts + 1 ≤ n →
        ((walkList ts).map linenoGetD).foldl Nat.max 0 = maxLineL ts) := by
  intro n
  induction n using Nat.strong_induction_on with
  | _ n ih =>
  constructor
  · intro t hsz
    cases t with
    | module body =>
        simp only [sizeA] at hsz
        have hb := (ih (2 * sizeL body + 1) (by omega)).2 body le_rfl
        simp only [walk, List.map_cons, listMax_cons, hb, maxLine, linenoGetD,
          linenoOf, Option.getD_none]
    | functionDef l c nm args body =>
        simp only [sizeA] at hsz
        have ha := (ih (2 * sizeL args + 1) (by omega)).2 args le_rfl
        have hb := (ih (2 * sizeL body + 1) (by omega)).2 body le_rfl
        simp only [walk, List.map_cons, List.map_append, listMax_cons,
          listMax_append, ha, hb, maxLine, linenoGetD, linenoOf, Option.getD_some]
    | classDef l c nm body =>
        simp only [sizeA] at hsz
        have hb := (ih (2 * sizeL body + 1) (by omega)).2 body le_rfl
        simp only [walk, List.map_cons, listMax_cons, hb, maxLine, linenoGetD,
          linenoOf, Option.getD_some]
    | assign l c targets value =>
        simp only [sizeA] at hsz
        have ht := (ih (2 * sizeL targets + 1) (by omega)).2 targets le_rfl
        have hv := (ih (2 * sizeA value) (by omega)).1 value le_rfl
        simp only [walk, List.map_cons, List.map_append, listMax_cons,
          listMax_append, ht, hv, maxLine, linenoGetD, linenoOf, Option.getD_some]
    | forStmt l c target iter body orelse =>
        simp only [sizeA] at hsz
        have h1 := (ih (2 * sizeA target) (by omega)).1 target le_rfl
        have h2 := (ih (2 * sizeA iter) (by omega)).1 iter le_rfl
        have h3 := (ih (2 * sizeL body + 1) (by omega)).2 body le_rfl
        have h4 := (ih (2 * sizeL orelse + 1) (by omega)).2 orelse le_rfl
        simp only [walk, List.map_cons, List.map_append, listMax_cons,
          listMax_append, h1, h2, h3, h4, maxLine, linenoGetD, linenoOf,
          Option.getD_some]
        ac_rfl
    | whileStmt l c test body orelse =>
        simp only [sizeA] at hsz
        have h1 := (ih (2 * sizeA test) (by omega)).1 test le_rfl
        have h2 := (ih (2 * sizeL body + 1) (by omega)).2 body le_rfl
        have h3 := (ih (2 * sizeL orelse + 1) (by omega)).2 orelse le_rfl
        simp only [walk, List.map_cons, List.map_append, listMax_cons,
          listMax_append, h1, h2, h3, maxLine, linenoGetD, linenoOf,
          Option.getD_some]
        ac_rfl
    | ifStmt l c test body orelse =>
        simp only [sizeA] at hsz
        have h1 := (ih (2 * sizeA test) (by omega)).1 test le_rfl
        have h2 := (ih (2 * sizeL body + 1) (by omega)).2 body le_rfl
        have h3 := (ih (2 * sizeL orelse + 1) (by omega)).2 orelse le_rfl
        simp only [walk, List.map_cons, List.map_append, listMax_cons,
          listMax_append, h1, h2, h3, maxLine, linenoGetD, linenoOf,
          Option.getD_some]
        ac_rfl
    | tryExcept l c body handlers orelse =>
        simp only [sizeA] at hsz
        have h1 := (ih (2 * sizeL body + 1) (by omega)).2 body le_rfl
        have h2 := (ih (2 * sizeL handlers + 1) (by omega)).2 handlers le_rfl
        have h3 := (ih (2 * sizeL orelse + 1) (by omega)).2 orelse le_rfl
        simp only [walk, List.map_cons, List.map_append, listMax_cons,
          listMax_append, h1, h2, h3, maxLine, linenoGetD, linenoOf,
          Option.getD_some]
        ac_rfl
    | tryFinally l c body finalbody =>
        simp only [sizeA] at hsz
        have h1 := (ih (2 * sizeL body + 1) (by omega)).2 body le_rfl
        have h2 := (ih (2 * sizeL finalbody + 1) (by omega)).2 finalbody le_rfl
        simp only [walk, List.map_cons, List.map_append, listMax_cons,
          listMax_append, h1, h2, maxLine, linenoGetD, linenoOf, Option.getD_some]
    | exceptHandler l c body =>
        simp only [sizeA] at hsz
        have hb := (ih (2 * sizeL body + 1) (by omega)).2 body le_rfl
        simp only [walk, List.map_cons, listMax_cons, hb, maxLine, linenoGetD,
          linenoOf, Option.getD_some]
    | imp l c names =>
        simp only [walk, walkList, List.map_cons, List.map_nil, maxLine,
          linenoGetD, linenoOf, Option.getD_some, List.foldl_cons, List.foldl_nil,
          maxLineL, Nat.zero_max, Nat.max_zero]
    | impFrom l c m names =>
        simp only [walk, walkList, List.map_cons, List.map_nil, maxLine,
          linenoGetD, linenoOf, Option.getD_some, List.foldl_cons, List.foldl_nil,
          maxLineL, Nat.zero_max, Nat.max_zero]
    | nameRef l c id =>
        simp only [walk, walkList, List.map_cons, List.map_nil, maxLine,
          linenoGetD, linenoOf, Option.getD_some, List.foldl_cons, List.foldl_nil,
          maxLineL, Nat.zero_max, Nat.max_zero]
    | tuple l c elts =>
        simp only [sizeA] at hsz
        have hb := (ih (2 * sizeL elts + 1) (by omega)).2 elts le_rfl
        simp only [walk, List.map_cons, listMax_cons, hb, maxLine, linenoGetD,
          linenoOf, Option.getD_some]
    | strLit l c s =>
        simp only [walk, walkList, List.map_cons, List.map_nil, maxLine,
          linenoGetD, linenoOf, Option.getD_some, List.foldl_cons, List.foldl_nil,
          maxLineL, Nat.zero_max, Nat.max_zero]
    | num l c =>
        simp only [walk, walkList, List.map_cons, List.map_nil, maxLine,
          linenoGetD, linenoOf, Option.getD_some, List.foldl_cons, List.foldl_nil,
          maxLineL, Nat.zero_max, Nat.max_zero]
    | passStmt l c =>
        simp only [walk, walkList, List.map_cons, List.map_nil, maxLine,
          linenoGetD, linenoOf, Option.getD_some, List.foldl_cons, List.foldl_nil,
          maxLineL, Nat.zero_max, Nat.max_zero]
    | exprStmt l c value =>
        simp only [sizeA] at hsz
        have hv := (ih (2 * sizeA value) (by omega)).1 value le_rfl
        simp only [walk, List.map_cons, listMax_cons, hv, maxLine, linenoGetD,
          linenoOf, Option.getD_some]
  · intro ts hsz
    cases ts with
    | nil => simp [walkList, maxLineL]
    | cons t rest =>
        simp only [sizeL] at hsz
        have h1 := (ih (2 * sizeA t) (by have := sizeA_pos t; omega)).1 t le_rfl
        have h2 := (ih (2 * sizeL rest + 1)
          (by have := sizeA_pos t; omega)).2 rest le_rfl
        simp only [walkList, List.map_append, listMax_append, h1, h2, maxLineL]

/-- The `end` computed by walking a subtree equals the recursive
maximum line number of the subtree. -/
theorem walkEndLineno_eq_maxLine (t : AST) : walkEndLineno t = maxLine t := by
  rw [walkEndLineno, walkEnd_foldl (walk t) 0]
  exact (walkMax_aux (2 * sizeA t)).1 t le_rfl

theorem isNestable_imp_compound :
    ∀ sub : AST, isNestableNode sub = true → specCompoundKind sub = true := by
  intro sub
  cases sub <;> simp [isNestableNode, specCompoundKind]

/-- C8 (amended): `nestable_lines` returns one `(startLine, endLine)`
pair, with `endLine` the maximum line of any descendant, for every
compound statement of kind function-def, class-def, if-conditional,
for-loop, or try/except / try/finally block anywhere in the tree — but
not for `while` loops, which the isinstance filter omits (see the
counterexample); conversely every returned pair arises from such a
statement, and a module with no compound statements at all yields an
empty list. -/
theorem c8_nestable_amended (tree : AST) :
    (∀ top sub, top ∈ bodyOf tree → sub ∈ walk top → isNestableNode sub = true →
        (linenoGetD sub, maxLine sub) ∈ nestable_lines tree) ∧
    (∀ p ∈ nestable_lines tree, ∃ top sub, top ∈ bodyOf tree ∧ sub ∈ walk top ∧
        isNestableNode sub = true ∧ p = (linenoGetD sub, maxLine sub)) ∧
    ((∀ top sub, top ∈ bodyOf tree → sub ∈ walk top → specCompoundKind sub = false) →
        nestable_lines tree = []) := by
  refine ⟨?_, ?_, ?_⟩
  · intro top sub htop hsub hkind
    simp only [nestable_lines]
    refine List.mem_flatMap.mpr ⟨top, htop, ?_⟩
    refine List.mem_filterMap.mpr ⟨sub, hsub, ?_⟩
    rw [if_pos hkind, walkEndLineno_eq_maxLine]
  · intro p hp
    simp only [nestable_lines] at hp
    rcases List.mem_flatMap.mp hp with ⟨top, htop, hp2⟩
    rcases List.mem_filterMap.mp hp2 with ⟨sub, hsub, hf⟩
    by_cases hk : isNestableNode sub = true
    · rw [if_pos hk, walkEndLineno_eq_maxLine, Option.some.injEq] at hf
      exact ⟨top, sub, htop, hsub, hk, hf.symm⟩
    · rw [if_neg hk] at hf
      cases hf
  · intro hnone
    simp only [nestable_lines]
    rw [List.eq_nil_iff_forall_not_mem]
    intro p hp
    rcases List.mem_flatMap.mp hp with ⟨top, htop, hp2⟩
    rcases List.mem_filterMap.mp hp2 with ⟨sub, hsub, hf⟩
    by_cases hk : isNestableNode sub = true
    · have := isNestable_imp_compound sub hk
      rw [hnone top sub htop hsub] at this
      cases this
    · rw [if_neg hk] at hf
      cases hf

/-- Witness for `c8_nestable_amended`: the function definition spanning
lines 1–2 of `def f(): pass` yields the fold range (1, 2). -/
theorem c8_nestable_amended_witness :
    ((1 : Nat), (2 : Nat)) ∈
      nestable_lines (.module [.functionDef 1 0 "f" [] [.passStmt 2 4]]) :=
  (c8_nestable_amended (.module [.functionDef 1 0 "f" [] [.passStmt 2 4]])).1
    (.functionDef 1 0 "f" [] [.passStmt 2 4])
    (.functionDef 1 0 "f" [] [.passStmt 2 4])
    (List.mem_cons_self _ _) (by simp [walk]) rfl


/-! ### C10: `modules` reads only the first name of an import -/

theorem lookupA_dictInsert_same {α : Type} :
    ∀ (d : List (String × α)) (k : String) (v : α),
      lookupA (dictInsert d k v) k = some v := by
  intro d
  induction d with
  | nil => intro k v; simp [dictInsert, lookupA]
  | cons p rest ih =>
      intro k v
      obtain ⟨k2, v2⟩ := p
      by_cases hk : k2 = k <;> simp [dictInsert, lookupA, hk, ih]

theorem lookupA_dictInsert_isSome {α : Type} :
    ∀ (d : List (String × α)) (k : String) (v : α) (k2 : String),
      (lookupA d k2).isSome → (lookupA (dictInsert d k v) k2).isSome := by
  intro d
  induction d with
  | nil => intro k v k2 h; simp [lookupA] at h
  | cons p rest ih =>
      intro k v k2 h
      obtain ⟨k3, v3⟩ := p
      by_cases h3 : k3 = k
      · subst h3
        by_cases h32 : k3 = k2
        · simp [dictInsert, lookupA, h32]
        · simp only [dictInsert, if_pos rfl, lookupA, if_neg h32] at h ⊢
          exact h
      · simp only [dictInsert, if_neg h3] at *
        by_cases h32 : k3 = k2
        · simp [lookupA, h32]
        · simp only [lookupA, if_neg h32] at h ⊢
          exact ih k v k2 h

theorem dictInsert_entries {α : Type} :
    ∀ (d : List (String × α)) (k : String) (v : α) (p : String × α),
      p ∈ dictInsert d k v → p ∈ d ∨ p.1 = k := by
  intro d
  induction d with
  | nil =>
      intro k v p h
      rcases List.mem_singleton.mp h with rfl
      exact Or.inr rfl
  | cons q rest ih =>
      intro k v p h
      obtain ⟨k2, v2⟩ := q
      by_cases hk : k2 = k
      · subst hk
        simp only [dictInsert, if_pos rfl] at h
        rcases List.mem_cons.mp h with rfl | h
        · exact Or.inr rfl
        · exact Or.inl (List.mem_cons_of_mem _ h)
      · simp only [dictInsert, if_neg hk] at h
        rcases List.mem_cons.mp h with rfl | h
        · exact Or.inl (List.mem_cons_self _ _)
        · rcases ih k v p h with h2 | h2
          · exact Or.inl (List.mem_cons_of_mem _ h2)
          · exact Or.inr h2

theorem moduleStep_entries {resolve : String → Except String (List String)}
    {m m' : List (String × List String)} {sub : AST}
    (h : moduleStep resolve m sub = .ok m') :
    ∀ p ∈ m', p ∈ m ∨
      ∃ l c a rest, sub = AST.imp l c (a :: rest) ∧ p.1 = a.name := by
  cases sub
  case imp l c names =>
    cases names with
    | nil => simp [moduleStep, firstAliasName, Bind.bind, Except.bind] at h
    | cons a rest =>
        simp only [moduleStep, firstAliasName] at h
        rcases exceptBind_ok.mp h with ⟨mn, hmn, h2⟩
        cases hmn
        rcases exceptBind_ok.mp h2 with ⟨info, hinfo, h3⟩
        cases h3
        intro p hp
        rcases dictInsert_entries m a.name info p hp with h4 | h4
        · exact Or.inl h4
        · exact Or.inr ⟨l, c, a, rest, rfl, h4⟩
  case impFrom l c mn names =>
    cases names with
    | nil => simp [moduleStep, firstAliasName, Bind.bind, Except.bind] at h
    | cons a rest =>
        simp only [moduleStep, firstAliasName] at h
        rcases exceptBind_ok.mp h with ⟨x, hx, h2⟩
        cases hx
        rcases exceptBind_ok.mp h2 with ⟨info, hinfo, h3⟩
        split at h3
        · cases h3
        · cases h3
          exact fun p hp => Or.inl hp
  all_goals (simp only [moduleStep] at h; cases h; exact fun p hp => Or.inl hp)

theorem moduleStep_keymono {resolve : String → Except String (List String)}
    {m m' : List (String × List String)} {sub : AST} {k : String}
    (h : moduleStep resolve m sub = .ok m')
    (hk : (lookupA m k).isSome) : (lookupA m' k).isSome := by
  cases sub
  case imp l c names =>
    cases names with
    | nil => simp [moduleStep, firstAliasName, Bind.bind, Except.bind] at h
    | cons a rest =>
        simp only [moduleStep, firstAliasName] at h
        rcases exceptBind_ok.mp h with ⟨mn, hmn, h2⟩
        cases hmn
        rcases exceptBind_ok.mp h2 with ⟨info, hinfo, h3⟩
        cases h3
        exact lookupA_dictInsert_isSome m a.name info k hk
  case impFrom l c mn names =>
    cases names with
    | nil => simp [moduleStep, firstAliasName, Bind.bind, Except.bind] at h
    | cons a rest =>
        simp only [moduleStep, firstAliasName] at h
        rcases exceptBind_ok.mp h with ⟨x, hx, h2⟩
        cases hx
        rcases exceptBind_ok.mp h2 with ⟨info, hinfo, h3⟩
        split at h3
        · cases h3
        · cases h3; exact hk
  all_goals (simp only [moduleStep] at h; cases h; exact hk)

theorem moduleStep_firstkey {resolve : String → Except String (List String)}
    {m m' : List (String × List String)} {l c : Nat} {a : ImpAlias}
    {rest : List ImpAlias}
    (h : moduleStep resolve m (.imp l c (a :: rest)) = .ok m') :
    (lookupA m' a.name).isSome := by
  simp only [moduleStep, firstAliasName] at h
  rcases exceptBind_ok.mp h with ⟨mn, hmn, h2⟩
  cases hmn
  rcases exceptBind_ok.mp h2 with ⟨info, hinfo, h3⟩
  cases h3
  rw [lookupA_dictInsert_same]
  rfl

theorem foldSteps_entries {resolve : String → Except String (List String)} :
    ∀ (subs : List AST) (m0 m' : List (String × List String)),
      List.foldlM (moduleStep resolve) m0 subs = .ok m' →
      ∀ p ∈ m', p ∈ m0 ∨
        ∃ sub ∈ subs, ∃ l c a rest, sub = AST.imp l c (a :: rest) ∧
          p.1 = a.name := by
  intro subs
  induction subs with
  | nil =>
      intro m0 m' h p hp
      simp [List.foldlM, pure, Except.pure] at h
      subst h
      exact Or.inl hp
  | cons s srest ih =>
      intro m0 m' h p hp
      simp only [List.foldlM_cons] at h
      rcases exceptBind_ok.mp h with ⟨m1, h1, h2⟩
      rcases ih m1 m' h2 p hp with h3 | ⟨sub, hsub, l, c, a, rest, heq, hn⟩
      · rcases moduleStep_entries h1 p h3 with h4 | ⟨l, c, a, rest, heq, hn⟩
        · exact Or.inl h4
        · exact Or.inr ⟨s, List.mem_cons_self _ _, l, c, a, rest, heq, hn⟩
      · exact Or.inr ⟨sub, List.mem_cons_of_mem _ hsub, l, c, a, rest, heq, hn⟩

theorem foldSteps_keymono {resolve : String → Except String (List String)} :
    ∀ (subs : List AST) (m0 m' : List (String × List String)) (k : String),
      List.foldlM (moduleStep resolve) m0 subs = .ok m' →
      (lookupA m0 k).isSome → (lookupA m' k).isSome := by
  intro subs
  induction subs with
  | nil =>
      intro m0 m' k h hk
      simp [List.foldlM, pure, Except.pure] at h
      subst h
      exact hk
  | cons s srest ih =>
      intro m0 m' k h hk
      simp only [List.foldlM_cons] at h
      rcases exceptBind_ok.mp h with ⟨m1, h1, h2⟩
      exact ih m1 m' k h2 (moduleStep_keymono h1 hk)

theorem foldSteps_firstkey {resolve : String → Except String (List String)} :
    ∀ (subs : List AST) (m0 m' : List (String × List String)) (l c : Nat)
      (a : ImpAlias) (rest : List ImpAlias),
      (AST.imp l c (a :: rest)) ∈ subs →
      List.foldlM (moduleStep resolve) m0 subs = .ok m' →
      (lookupA m' a.name).isSome := by
  intro subs
  induction subs with
  | nil => intro m0 m' l c a rest hmem; cases hmem
  | cons s srest ih =>
      intro m0 m' l c a rest hmem h
      simp only [List.foldlM_cons] at h
      rcases exceptBind_ok.mp h with ⟨m1, h1, h2⟩
      rcases List.mem_cons.mp hmem with heq | hmem2
      · subst heq
        exact foldSteps_keymono srest m1 m' a.name h2 (moduleStep_firstkey h1)
      · exact ih m1 m' l c a rest hmem2 h2

theorem foldNodes_entries {resolve : String → Except String (List String)} :
    ∀ (body : List AST) (m0 m' : List (String × List String)),
      List.foldlM (fun m node => List.foldlM (moduleStep resolve) m (walk node))
        m0 body = .ok m' →
      ∀ p ∈ m', p ∈ m0 ∨
        ∃ node ∈ body, ∃ sub ∈ walk node,
          ∃ l c a rest, sub = AST.imp l c (a :: rest) ∧ p.1 = a.name := by
  intro body
  induction body with
  | nil =>
      intro m0 m' h p hp
      simp [List.foldlM, pure, Except.pure] at h
      subst h
      exact Or.inl hp
  | cons nd ndrest ih =>
      intro m0 m' h p hp
      simp only [List.foldlM_cons] at h
      rcases exceptBind_ok.mp h with ⟨m1, h1, h2⟩
      rcases ih m1 m' h2 p hp with h3 | ⟨node, hnode, hrest⟩
      · rcases foldSteps_entries (walk nd) m0 m1 h1 p h3 with h4 | ⟨sub, hsub, hrest⟩
        · exact Or.inl h4
        · exact Or.inr ⟨nd, List.mem_cons_self _ _, sub, hsub, hrest⟩
      · exact Or.inr ⟨node, List.mem_cons_of_mem _ hnode, hrest⟩

theorem foldNodes_keymono {resolve : String → Except String (List String)} :
    ∀ (body : List AST) (m0 m' : List (String × List String)) (k : String),
      List.foldlM (fun m node => List.foldlM (moduleStep resolve) m (walk node))
        m0 body = .ok m' →
      (lookupA m0 k).isSome → (lookupA m' k).isSome := by
  intro body
  induction body with
  | nil =>
      intro m0 m' k h hk
      simp [List.foldlM, pure, Except.pure] at h
      subst h
      exact hk
  | cons nd ndrest ih =>
      intro m0 m' k h hk
      simp only [List.foldlM_cons] at h
      rcases exceptBind_ok.mp h with ⟨m1, h1, h2⟩
      exact ih m1 m' k h2 (foldSteps_keymono (walk nd) m0 m1 k h1 hk)

theorem foldNodes_firstkey {resolve : String → Except String (List String)} :
    ∀ (body : List AST) (m0 m' : List (String × List String)) (node : AST)
      (l c : Nat) (a : ImpAlias) (rest : List ImpAlias),
      node ∈ body → (AST.imp l c (a :: rest)) ∈ walk node →
      List.foldlM (fun m node => List.foldlM (moduleStep resolve) m (walk node))
        m0 body = .ok m' →
      (lookupA m' a.name).isSome := by
  intro body
  induction body with
  | nil => intro m0 m' node l c a rest hnode; cases hnode
  | cons nd ndrest ih =>
      intro m0 m' node l c a rest hnode hsub h
      simp only [List.foldlM_cons] at h
      rcases exceptBind_ok.mp h with ⟨m1, h1, h2⟩
      rcases List.mem_cons.mp hnode with heq | hmem
      · subst heq
        exact foldNodes_keymono ndrest m1 m' a.name h2
          (foldSteps_firstkey (walk node) m0 m1 l c a rest hsub h1)
      · exact ih m1 m' node l c a rest hmem hsub h2

/-- C10: `modules()` consults only the first alias of each import
statement.  Every key of a successful result is the first name of some
`Import` statement in the tree (so every subsequent name of a statement,
when it is not also some statement's first name, is absent); the first
name of every reachable `Import` statement is present; and yet scope
collection (`_visit_import`) binds every alias of the statement. -/
theorem c10_modules_first_name :
    (∀ (resolve : String → Except String (List String)) (tree : AST)
        (m : List (String × List String)), modules resolve tree = .ok m →
        ∀ p ∈ m, p.1 ∈ importFirstNames tree) ∧
    (∀ (resolve : String → Except String (List String)) (tree : AST)
        (m : List (String × List String)) (node : AST) (l c : Nat)
        (a : ImpAlias) (rest : List ImpAlias),
        modules resolve tree = .ok m →
        node ∈ bodyOf tree → (AST.imp l c (a :: rest)) ∈ walk node →
        (lookupA m a.name).isSome) ∧
    (∀ (cut : Cut) (vs : Vars) (l c : Nat) (names : List ImpAlias) (vs' : Vars),
        leCut l cut = true →
        avisit cut vs (.imp l c names) = .ok vs' →
        ∀ a ∈ names, MemV vs' (bindNameOf a) ⟨l, c⟩) := by
  refine ⟨?_, ?_, ?_⟩
  · intro resolve tree m h p hp
    rcases foldNodes_entries (bodyOf tree) [] m h p hp with h2 | h2
    · cases h2
    · rcases h2 with ⟨node, hnode, sub, hsub, l, c, a, rest, rfl, hn⟩
      simp only [importFirstNames]
      refine List.mem_flatMap.mpr ⟨node, hnode, ?_⟩
      refine List.mem_filterMap.mpr ⟨AST.imp l c (a :: rest), hsub, ?_⟩
      rw [hn]
  · intro resolve tree m node l c a rest h hnode hsub
    exact foldNodes_firstkey (bodyOf tree) [] m node l c a rest hnode hsub h
  · intro cut vs l c names vs' hguard h a ha
    simp only [avisit] at h
    rw [if_pos (by simp [visitGuard, linenoOf, hguard])] at h
    cases h
    exact importNamesFold_mem l c names vs a ha


/-- Witness for `c10_modules_first_name` on `import a, b` with the
one-export resolver: the first name `a` is a key of the result, `b` is
not, and the collector binds both `a` and `b`. -/
theorem c10_modules_first_name_witness :
    modules c10Resolve c10Tree = .ok [("a", ["a"])] ∧
    (lookupA [(("a" : String), ["a"])] "a").isSome = true ∧
    lookupA [(("a" : String), ["a"])] "b" = none ∧
    MemV [("a", [⟨1, 0⟩]), ("b", [⟨1, 0⟩])] "b" ⟨1, 0⟩ := by
  refine ⟨rfl, ?_, rfl, ?_⟩
  · exact c10_modules_first_name.2.1 c10Resolve c10Tree [("a", ["a"])]
      (.imp 1 0 [⟨"a", none⟩, ⟨"b", none⟩]) 1 0 ⟨"a", none⟩ [⟨"b", none⟩]
      rfl (List.mem_cons_self _ _) (by simp [walk])
  · exact c10_modules_first_name.2.2 (some 5) [] 1 0
      [⟨"a", none⟩, ⟨"b", none⟩] [("a", [⟨1, 0⟩]), ("b", [⟨1, 0⟩])] rfl rfl
      ⟨"b", none⟩ (List.mem_cons_of_mem _ (List.mem_cons_self _ _))

end Introspector
